import Mathlib

/-!
Verification of the go-config flatten/reconstruct engine

A shallow embedding of the core of the `budimanlai/go-config` repository
(package `config`): the JSON flattener (`flattenJSON` in `file.go`), the
type-aware reconstruction pipeline (`flatToNestedWithTypeAwareness`,
`convertValueByTargetType`, `removeArrayIndex`, `convertStringToJSONType`,
`convertMapToArrayRecursive`, `isNumericArrayMap`, `convertToArray`,
`extractFieldTypesRecursive` in `config.go`), the load/reload driver
(`Open`, `Reload`), and the cache/statistics operations (`ClearCache`,
`GetStats`, `extractFieldTypesWithCache`).

Go `map[string]T` values are modelled as association lists in insertion
order; a map assignment is `upsert` (replace in place or append), lookup is
`lookupL`.  Go `float64` values are modelled by their decimal rendering
(the string `fmt.Sprintf("%v", f)` produces), since Go's shortest-form
rendering and `strconv.ParseFloat` are mutually inverse; `strconv.ParseFloat`
is modelled as a syntax check on decimal/`inf`/`nan` forms (hexadecimal
float literals are not modelled).  The Go standard-library parsers
`strconv.ParseBool`, `strconv.Atoi` / `strconv.ParseInt(s, 10, 64)`,
`strconv.ParseUint(s, 10, 64)` and `strconv.Itoa` are modelled exactly on
decimal strings, including the 64-bit range checks.
-/

namespace GoConfig

/-! ## Characters, digits, decimal rendering (`strconv.Itoa`) -/

/-- Decimal digit test, as `'0' <= c && c <= '9'`. -/
def isDigitCh (c : Char) : Bool := 48 ≤ c.toNat && c.toNat ≤ 57

/-- The digit character for `d < 10`. -/
def digitCh (d : Nat) : Char := Char.ofNat (48 + d)

/-- Numeric value of a digit character. -/
def digitVal (c : Char) : Nat := c.toNat - 48

/-- Decimal digits of `n`, most significant first, with fuel (any fuel
`≥ n` computes the digits; see `natToDecAux_congr`). -/
def natToDecAux : Nat → Nat → List Char
  | 0, n => [digitCh n]
  | fuel + 1, n =>
    if n < 10 then [digitCh n]
    else natToDecAux fuel (n / 10) ++ [digitCh (n % 10)]

/-- Decimal digits of `n`, most significant first (`strconv.Itoa` core). -/
def natToDecCore (n : Nat) : List Char := natToDecAux n n

/-- `strconv.Itoa` on a natural number. -/
def natToDec (n : Nat) : String := ⟨natToDecCore n⟩

/-- `strconv.Itoa` / the rendering `fmt.Sprintf("%v", n)` uses for a Go int. -/
def intToDec (n : Int) : String :=
  if n < 0 then "-" ++ natToDec n.natAbs else natToDec n.natAbs

/-- Value of a digit string (used by the model of `strconv.Atoi`). -/
def decValue (l : List Char) : Nat := l.foldl (fun a c => a * 10 + digitVal c) 0

/-! ## Parsers (`strconv.ParseBool`, `strconv.Atoi`, `strconv.ParseUint`,
`strconv.ParseFloat`) -/

/-- `strconv.ParseBool`: accepts exactly the thirteen literal forms. -/
def goParseBool (s : String) : Option Bool :=
  if s = "1" ∨ s = "t" ∨ s = "T" ∨ s = "TRUE" ∨ s = "true" ∨ s = "True" then
    some true
  else if s = "0" ∨ s = "f" ∨ s = "F" ∨ s = "FALSE" ∨ s = "false" ∨ s = "False" then
    some false
  else none

/-- Unsigned decimal core: at least one digit, all digits. -/
def parseNatCore (l : List Char) : Option Nat :=
  if l ≠ [] ∧ l.all isDigitCh then some (decValue l) else none

/-- `strconv.Atoi` = `strconv.ParseInt(s, 10, 64)` on a 64-bit platform:
optional sign, decimal digits, range `[-2^63, 2^63)`. -/
def goAtoi (s : String) : Option Int :=
  match s.data with
  | [] => none
  | c :: rest =>
    if c = '+' then
      (parseNatCore rest).bind fun n =>
        if (n : Int) ≤ 2 ^ 63 - 1 then some (n : Int) else none
    else if c = '-' then
      (parseNatCore rest).bind fun n =>
        if (n : Int) ≤ 2 ^ 63 then some (-(n : Int)) else none
    else
      (parseNatCore (c :: rest)).bind fun n =>
        if (n : Int) ≤ 2 ^ 63 - 1 then some (n : Int) else none

/-- `strconv.ParseUint(s, 10, 64)`: optional `+`, decimal digits, `< 2^64`. -/
def goParseUint (s : String) : Option Int :=
  match s.data with
  | [] => none
  | c :: rest =>
    if c = '+' then
      (parseNatCore rest).bind fun n =>
        if (n : Int) ≤ 2 ^ 64 - 1 then some (n : Int) else none
    else if c = '-' then none
    else
      (parseNatCore (c :: rest)).bind fun n =>
        if (n : Int) ≤ 2 ^ 64 - 1 then some (n : Int) else none

/-- Strip one leading sign character. -/
def stripSign (l : List Char) : List Char :=
  match l with
  | [] => []
  | c :: rest => if c = '+' ∨ c = '-' then rest else c :: rest

/-- Split a character list at every occurrence of `sep`
(the model of `strings.Split`). -/
def splitOnCh (sep : Char) : List Char → List (List Char)
  | [] => [[]]
  | c :: rest =>
    match splitOnCh sep rest with
    | [] => [[c]]
    | h :: t => if c = sep then [] :: h :: t else (c :: h) :: t

/-- Mantissa syntax: decimal digits with at most one `.` and
at least one digit overall. -/
def mantissaOk (l : List Char) : Bool :=
  let parts := splitOnCh '.' l
  (parts.length = 1 || parts.length = 2) &&
    parts.all (·.all isDigitCh) && !(parts.flatten.isEmpty)

/-- Exponent part syntax (after `e`/`E`): optional sign, one or more digits. -/
def exponentOk (l : List Char) : Bool :=
  let l' := stripSign l
  !l'.isEmpty && l'.all isDigitCh

/-- Syntax accepted by `strconv.ParseFloat(s, 64)`: optional sign, then
`inf`/`infinity`/`nan` (case-insensitive) or a decimal mantissa with an
optional `e`/`E` exponent.  Hexadecimal float literals are not modelled. -/
def isFloatSyntax (s : String) : Bool :=
  let l := stripSign s.data
  let low := l.map Char.toLower
  if low = "inf".data ∨ low = "infinity".data ∨ low = "nan".data then true
  else
    match splitOnCh 'e' (low) with
    | [m] => mantissaOk m
    | [m, e] => mantissaOk m && exponentOk e
    | _ => false

/-! ## Dotted paths: `strings.Split(key, ".")` and joining -/

/-- `strings.Split(s, ".")`. -/
def splitDot (s : String) : List String :=
  (splitOnCh '.' s.data).map fun l => ⟨l⟩

/-- Join segments with `.` (the `strings.Builder` loop of
`removeArrayIndex`, and the inverse of `splitDot`). -/
def joinDot (l : List String) : String :=
  match l with
  | [] => ""
  | h :: t => t.foldl (fun a s => a ++ "." ++ s) h

/-- Extend a dotted prefix by one segment: `prefix == "" ? k : prefix+"."+k`,
as in `flattenJSON` and `extractFieldTypesRecursive`. -/
def extKey (p k : String) : String := if p = "" then k else p ++ "." ++ k

/-! ## The generic hierarchical document (`map[string]interface{}` trees)

`JSON.f` carries the decimal rendering of the `float64` value; `JSON.null`
is a `nil` interface value (a JSON `null`).  Objects are association lists
in insertion order. -/

inductive JSON where
  | s (v : String)
  | b (v : Bool)
  | i (v : Int)
  | f (v : String)
  | null
  | arr (xs : List JSON)
  | obj (fields : List (String × JSON))

/-- `fmt.Sprintf("%v", v)` on a scalar interface value: strings verbatim,
booleans `true`/`false`, integers in decimal, floats by their shortest
rendering (carried in the model), and the `nil` interface as `<nil>`. -/
def goFmt : JSON → String
  | .s v => v
  | .b true => "true"
  | .b false => "false"
  | .i n => intToDec n
  | .f v => v
  | .null => "<nil>"
  | .arr _ => ""
  | .obj _ => ""

/- Size measure used to justify termination of the flattener (the
`{"": nestedArray}` re-wrapping step of `flattenJSON` shrinks it). -/
mutual

def jsize : JSON → Nat
  | .s _ => 1
  | .b _ => 1
  | .i _ => 1
  | .f _ => 1
  | .null => 1
  | .obj m => 1 + msize m
  | .arr xs => 1 + asize xs

def msize : List (String × JSON) → Nat
  | [] => 0
  | (_, v) :: rest => 1 + jsize v + msize rest

def asize : List JSON → Nat
  | [] => 0
  | x :: rest => 2 + jsize x + asize rest

end

/-! ## The flattener (`flattenJSON` in `file.go`)

`flattenJSON(prefix, m, storage)` walks a parsed JSON object and performs a
sequence of `storage[key] = value` writes.  The model returns that write
sequence (in the iteration order of the association list).  `flattenEntry`
is the per-value `switch`, `flattenItems` the `for i, item := range val`
loop over an array (including the `map[string]interface{}{"": itemVal}`
re-wrapping of a directly nested array). -/

mutual

def flattenJSON (pre : String) : List (String × JSON) → List (String × String)
  | [] => []
  | (k, v) :: rest =>
    flattenEntry (extKey pre k) v ++ flattenJSON pre rest
termination_by m => msize m
decreasing_by all_goals simp_arith [jsize, msize, asize]

def flattenEntry (key : String) : JSON → List (String × String)
  | .obj m => flattenJSON key m
  | .arr xs => flattenItems key 0 xs
  | v => [(key, goFmt v)]
termination_by v => jsize v
decreasing_by all_goals simp_arith [jsize, msize, asize]

def flattenItems (key : String) (i : Nat) : List JSON → List (String × String)
  | [] => []
  | item :: rest =>
    (match item with
      | .obj m => flattenJSON (key ++ "." ++ natToDec i) m
      | .arr ys => flattenJSON (key ++ "." ++ natToDec i) [("", .arr ys)]
      | v => [(key ++ "." ++ natToDec i, goFmt v)]) ++
    flattenItems key (i + 1) rest
termination_by xs => asize xs
decreasing_by all_goals simp_arith [jsize, msize, asize]

end

/-! ## Go maps as association lists -/

/-- Go map lookup `m[k]` (`v, ok := m[k]`). -/
def lookupL {α : Type} : List (String × α) → String → Option α
  | [], _ => none
  | (k', v) :: rest, k => if k' = k then some v else lookupL rest k

/-- Go map assignment `m[k] = v`: replace in place, or append a new key. -/
def upsert {α : Type} : List (String × α) → String → α → List (String × α)
  | [], k, v => [(k, v)]
  | (k', v') :: rest, k, v =>
    if k' = k then (k, v) :: rest else (k', v') :: upsert rest k v

/-! ## Target record types (`reflect.Type`) and shape extraction

A record type is modelled as far as `extractFieldTypesRecursive` inspects
it: primitive kinds (all `reflect.Int*` collapse to `tInt`, all
`reflect.Uint*` to `tUint`, `reflect.Float32/64` to `tFloat`), structs as
lists of `(fieldName, jsonTag, type)` triples (all fields exported),
slices, pointers, and `tOther` for any other kind (which
`convertValueByTargetType` sends to its `default` branch). -/

inductive GoType where
  | tString
  | tInt
  | tUint
  | tFloat
  | tBool
  | tStruct (fields : List (String × String × GoType))
  | tSlice (elem : GoType)
  | tPtr (elem : GoType)
  | tOther

/-- `strings.Split(tag, ",")[0]`: the name part of a JSON tag. -/
def jsonTagName (tag : String) : String := ⟨tag.data.takeWhile (· ≠ ',')⟩

/-- The configuration name of a field: the tag's name part, or the Go field
name when the tag has an empty name part. -/
def tagFieldName (name tag : String) : String :=
  if jsonTagName tag = "" then name else jsonTagName tag

/-- One pointer deref (`fieldType.Elem()` when `Kind() == reflect.Ptr`). -/
def derefPtr : GoType → GoType
  | .tPtr e => e
  | t => t

/- Sizes of types and field lists, the fuel measure of the extractor. -/
mutual

def gtsize : GoType → Nat
  | .tStruct fields => 1 + gfsize fields
  | .tSlice e => 1 + gtsize e
  | .tPtr e => 1 + gtsize e
  | _ => 1

def gfsize : List (String × String × GoType) → Nat
  | [] => 1
  | (_, _, ty) :: rest => 1 + gtsize ty + gfsize rest

end

/-- `extractFieldTypesRecursive(prefix, structType, fieldTypes)`, fuelled:
walks the fields of a struct type; nested structs recurse with the
extended dotted prefix; a slice of structs recurses into the element type
with the **same** prefix (no index segment); other fields store their
(element) type at the full path.  Every recursive call is on a
structurally smaller argument (the remaining fields, or the fields of a
nested struct type), so any fuel from `gfsize fields` up computes the
recursion fully (`extractFTRAux_congr`). -/
def extractFTRAux : Nat → String → List (String × String × GoType) →
    List (String × GoType) → List (String × GoType)
  | 0, _, _, fieldTypes => fieldTypes
  | fuel + 1, pre, fields, fieldTypes =>
    match fields with
    | [] => fieldTypes
    | (name, tag, ty) :: rest =>
      if tag = "" ∨ tag = "-" then extractFTRAux fuel pre rest fieldTypes
      else
        extractFTRAux fuel pre rest
          (match derefPtr ty with
           | .tStruct sfields =>
             extractFTRAux fuel (extKey pre (tagFieldName name tag)) sfields
               fieldTypes
           | .tSlice (.tStruct sfields) =>
             extractFTRAux fuel (extKey pre (tagFieldName name tag)) sfields
               fieldTypes
           | .tSlice e => upsert fieldTypes (extKey pre (tagFieldName name tag)) e
           | t => upsert fieldTypes (extKey pre (tagFieldName name tag)) t)

/-- `extractFieldTypesRecursive` with enough fuel for its full recursion. -/
def extractFieldTypesRecursive (pre : String)
    (fields : List (String × String × GoType))
    (fieldTypes : List (String × GoType)) : List (String × GoType) :=
  extractFTRAux (gfsize fields) pre fields fieldTypes

/-! ## Value conversion (`convertValueByTargetType` and helpers) -/

/-- `removeArrayIndex(key)`: drop every dotted segment that `strconv.Atoi`
accepts, keeping single-segment keys unchanged. -/
def removeArrayIndex (key : String) : String :=
  let parts := splitDot key
  if parts.length ≤ 1 then key
  else joinDot (parts.filter fun p => (goAtoi p).isNone)

/-- `convertStringToJSONType(value)`: auto-detection fallback — try
`ParseBool`, then `Atoi`, then `ParseFloat`, else keep the string. -/
def convertStringToJSONType (value : String) : JSON :=
  match goParseBool value with
  | some bv => .b bv
  | none =>
    match goAtoi value with
    | some iv => .i iv
    | none => if isFloatSyntax value then .f value else .s value

/-- `convertValueByTargetType(key, value, fieldTypes)`: exact path lookup,
then the array-index-stripped lookup, then auto-detection; a found target
kind drives the conversion, with parse failures falling back to the raw
string. -/
def convertValueByTargetType (key value : String)
    (fieldTypes : List (String × GoType)) : JSON :=
  match (match lookupL fieldTypes key with
         | some t => some t
         | none => lookupL fieldTypes (removeArrayIndex key)) with
  | none => convertStringToJSONType value
  | some t =>
    match t with
    | .tString => .s value
    | .tInt => match goAtoi value with | some n => .i n | none => .s value
    | .tUint => match goParseUint value with | some n => .i n | none => .s value
    | .tFloat => if isFloatSyntax value then .f value else .s value
    | .tBool => match goParseBool value with | some bv => .b bv | none => .s value
    | _ => .s value

/-! ## Rebuilding the nested document -/

/-- The nested-insertion loop of `flatToNestedWithTypeAwareness`: walk the
dotted segments of one key, creating intermediate maps, descending into
existing maps, abandoning the write when a non-map value is in the way,
and overwriting at the final segment. -/
def setPath : List String → List (String × JSON) → JSON → List (String × JSON)
  | [], m, _ => m
  | [p], m, v => upsert m p v
  | p :: q :: rest, m, v =>
    match lookupL m p with
    | none => upsert m p (.obj (setPath (q :: rest) [] v))
    | some (.obj inner) => upsert m p (.obj (setPath (q :: rest) inner v))
    | some _ => m

/-- `isNumericArrayMap(m)`: non-empty and every index `0..len(m)-1`
(rendered by `strconv.Itoa`) is a key. -/
def isNumericArrayMap (m : List (String × JSON)) : Bool :=
  !m.isEmpty && (List.range m.length).all fun i => (lookupL m (natToDec i)).isSome

/-- `convertToArray` applied to a map whose values have already been
converted: element `i` is the value stored at key `strconv.Itoa(i)` (the
source converts each `m[strconv.Itoa(i)]` as it copies it; here
`convFields`/`convertMapToArrayRecursive` has already converted the stored
values pointwise, so the two phrasings agree; a missing key yields the
`nil` element the source would produce). -/
def convertToArray (m : List (String × JSON)) : List JSON :=
  (List.range m.length).map fun i => (lookupL m (natToDec i)).getD .null

mutual

/-- `convertMapToArrayRecursive(data)`: convert every map whose keys are
exactly `0..n-1` into an array, recursively. -/
def convertMapToArrayRecursive : JSON → JSON
  | .obj m =>
    if isNumericArrayMap m then .arr (convertToArray (convFields m))
    else .obj (convFields m)
  | .arr xs => .arr (convItems xs)
  | v => v

/-- The `for key, value := range v` loop of `convertMapToArrayRecursive`. -/
def convFields : List (String × JSON) → List (String × JSON)
  | [] => []
  | (k, v) :: rest => (k, convertMapToArrayRecursive v) :: convFields rest

/-- The `for i, value := range v` loop of `convertMapToArrayRecursive`. -/
def convItems : List JSON → List JSON
  | [] => []
  | x :: rest => convertMapToArrayRecursive x :: convItems rest

end

/-- `flatToNestedWithTypeAwareness(fieldTypes)` over a flat storage: convert
each value by its target type, insert it along its dotted path, then
post-process numeric-keyed maps into arrays (keeping the pre-processed map
when the whole document would become an array). -/
def flatToNestedWithTypeAwareness (storage : List (String × String))
    (fieldTypes : List (String × GoType)) : List (String × JSON) :=
  let result := storage.foldl
    (fun acc kv => setPath (splitDot kv.1) acc
      (convertValueByTargetType kv.1 kv.2 fieldTypes)) []
  match convertMapToArrayRecursive (.obj result) with
  | .obj processed => processed
  | _ => result

/-! ## Specification-side descriptions of documents

These definitions are not translations of repository code; they describe
documents abstractly (scalar leaves with their segment paths, the expected
nested form, the shape of a document's own structure, well-formedness) and
are used to state and prove the round-trip property. -/

/-- The primitive kinds a shape map can assign (spec-side). -/
inductive SKind where
  | str
  | int
  | float
  | bool
  deriving DecidableEq

/-- The `GoType` a primitive kind denotes. -/
def SKind.toGoType : SKind → GoType
  | .str => .tString
  | .int => .tInt
  | .float => .tFloat
  | .bool => .tBool

/-- The kind of a scalar document value. -/
def kindOf : JSON → SKind
  | .b _ => .bool
  | .i _ => .int
  | .f _ => .float
  | _ => .str

/- Scalar leaves of a document, each with its list of path segments
(array positions contribute their decimal index as a segment). -/
mutual

def leaves : JSON → List (List String × JSON)
  | .obj m => leafFields m
  | .arr xs => leafItems 0 xs
  | sc => [([], sc)]

def leafFields : List (String × JSON) → List (List String × JSON)
  | [] => []
  | (k, v) :: rest => (leaves v).map (fun pv => (k :: pv.1, pv.2)) ++ leafFields rest

def leafItems (i : Nat) : List JSON → List (List String × JSON)
  | [] => []
  | x :: rest =>
    (leaves x).map (fun pv => (natToDec i :: pv.1, pv.2)) ++ leafItems (i + 1) rest

end

/- The nested map the insertion phase is expected to build: the document
itself, with every array turned into a map keyed by decimal indices. -/
mutual

def toNested : JSON → JSON
  | .obj m => .obj (nestedFields m)
  | .arr xs => .obj (nestedItems 0 xs)
  | sc => sc

def nestedFields : List (String × JSON) → List (String × JSON)
  | [] => []
  | (k, v) :: rest => (k, toNested v) :: nestedFields rest

def nestedItems (i : Nat) : List JSON → List (String × JSON)
  | [] => []
  | x :: rest => (natToDec i, toNested x) :: nestedItems (i + 1) rest

end

/- The shape of a document's own structure, at segment level: every leaf
path (array indices stripped) mapped to its kind, arrays represented by
their first element — the segment-level counterpart of what
`extractFieldTypesRecursive` derives from a matching record type. -/
mutual

def shapeSegs : JSON → List (List String × SKind)
  | .obj m => shapeFields m
  | .arr [] => []
  | .arr (x :: _) => shapeSegs x
  | sc => [([], kindOf sc)]

def shapeFields : List (String × JSON) → List (List String × SKind)
  | [] => []
  | (k, v) :: rest =>
    (shapeSegs v).map (fun qk => (k :: qk.1, qk.2)) ++ shapeFields rest

end

/-- A shape map matching the document's own structure, with dotted string
paths, as handed to `flatToNestedWithTypeAwareness`. -/
def shapeOfDoc (m : List (String × JSON)) : List (String × GoType) :=
  (shapeFields m).map fun qk => (joinDot qk.1, qk.2.toGoType)

/-- A usable object key: non-empty, no dot, and not accepted by
`strconv.Atoi` (so it can never collide with an array index segment). -/
def wfKey (k : String) : Bool :=
  !(k = "") && !(k.data.contains '.') && (goAtoi k).isNone

/-- Not an array node. -/
def notArr : JSON → Bool
  | .arr _ => false
  | _ => true

/- Well-formed documents, the class for which the round trip is proved:
no nulls, integers within the 64-bit range, floats with parseable
renderings, non-empty objects with distinct well-formed keys, non-empty
homogeneous arrays (all elements share the shape of the first) whose
elements are not themselves arrays. -/
mutual

def wfV : JSON → Bool
  | .s _ => true
  | .b _ => true
  | .i n => decide (-(2 ^ 63) ≤ n) && decide (n < 2 ^ 63)
  | .f v => isFloatSyntax v
  | .null => false
  | .obj m => !m.isEmpty && decide ((m.map Prod.fst).Nodup) && wfFields m
  | .arr xs =>
    !xs.isEmpty && decide (xs.length < 2 ^ 63) && wfElems (shapeSegs (.arr xs)) xs

def wfFields : List (String × JSON) → Bool
  | [] => true
  | (k, v) :: rest => wfKey k && wfV v && wfFields rest

def wfElems (sh : List (List String × SKind)) : List JSON → Bool
  | [] => true
  | x :: rest => wfV x && notArr x && decide (shapeSegs x = sh) && wfElems sh rest

end

/-- Well-formed top-level document (the root object may be empty). -/
def wfDoc (m : List (String × JSON)) : Bool :=
  decide ((m.map Prod.fst).Nodup) && wfFields m

/-- A usable path segment: non-empty and dot-free (array-index segments
satisfy this but not `wfKey`). -/
def wfSeg (s : String) : Bool := !(s = "") && !(s.data.contains '.')

/-- A scalar document value. -/
def isScalar : JSON → Bool
  | .s _ => true
  | .b _ => true
  | .i _ => true
  | .f _ => true
  | _ => false

/-- Drop the segments `strconv.Atoi` accepts (spec-side counterpart of
`removeArrayIndex`, on segment lists). -/
def stripIdx (p : List String) : List String :=
  p.filter fun s => (goAtoi s).isNone

/-- Run the nested-insertion loop over already-split, already-converted
writes (spec-side description of the `flatToNestedWithTypeAwareness`
fold). -/
def insertSegs (ws : List (List String × JSON)) (acc : List (String × JSON)) :
    List (String × JSON) :=
  ws.foldl (fun a pv => setPath pv.1 a pv.2) acc

/-- The map an array block reconstructs to, before conversion back: decimal
indices from `i` paired with the elements. -/
def idxMap (i : Nat) : List JSON → List (String × JSON)
  | [] => []
  | x :: rest => (natToDec i, x) :: idxMap (i + 1) rest

/-! ## The `Config` instance: load, reload, cache, statistics

`Config.storage` and `Config.file` are modelled directly; the fsnotify
watcher is reduced to the `watcher != nil` flag `GetStats` reports; the
type cache maps the `structType.String()` identity to a computed field-type
map.  Reading one source file (`File.ReadIni` / `File.ReadJSON`) is
modelled by a filesystem collaborator `fs : String → Option (List (String ×
String))`: `none` is an I/O or parse error (in which case the file
contributes no writes, as a failing `os.Open`/`ioutil.ReadFile`/
`json.Unmarshal` happens before any storage write), `some ws` the sequence
of `storage[key] = value` writes the parse performs in order. -/

structure ConfigState where
  storage : List (String × String)
  file : List String
  typeCache : List (String × List (String × GoType))
  watcherActive : Bool

/-- Apply a parse's write sequence to the storage map. -/
def applyWrites (s : List (String × String)) (ws : List (String × String)) :
    List (String × String) :=
  ws.foldl (fun acc kv => upsert acc kv.1 kv.2) s

/-- The final value a write sequence assigns to a key: the last write wins
(spec-side description of one parsed source). -/
def wget : List (String × String) → String → Option String
  | [], _ => none
  | (k', v) :: rest, k =>
    match wget rest k with
    | some v' => some v'
    | none => if k' = k then some v else none

/-- The shared read loop of `Open` and `Reload`: read each file in order,
merging its writes into `storage`; the first failing file stops the loop,
returning the error and the state as mutated so far. -/
def readFiles (fs : String → Option (List (String × String))) :
    List String → ConfigState → Option String × ConfigState
  | [], c => (none, c)
  | f :: rest, c =>
    match fs f with
    | none => (some ("failed to read config file " ++ f), c)
    | some ws => readFiles fs rest { c with storage := applyWrites c.storage ws }

/-- `Config.Open(file...)`: reject an empty list, clear the storage, record
the file list, read every file in order (last write wins), then start the
watcher. -/
def openConfig (fs : String → Option (List (String × String)))
    (c : ConfigState) (files : List String) : Option String × ConfigState :=
  if files.isEmpty then (some "config file path cannot be empty", c)
  else
    let c' := { c with storage := [], file := files }
    match readFiles fs files c' with
    | (none, c'') => (none, { c'' with watcherActive := true })
    | r => r

/-- `Config.Reload()`: no recorded files is an error; otherwise the storage
is replaced by a fresh empty map **before** the files are re-read, and a
failing read returns immediately with the partially rebuilt storage in
place. -/
def reload (fs : String → Option (List (String × String)))
    (c : ConfigState) : Option String × ConfigState :=
  if c.file.isEmpty then (some "no config file to reload", c)
  else readFiles fs c.file { c with storage := [] }

/-- The statistics record `ConfigStats` of `GetStats`. -/
structure ConfigStats where
  storageSize : Nat
  filesWatched : Nat
  cacheSize : Nat
  isWatching : Bool

/-- `Config.GetStats()`. -/
def getStats (c : ConfigState) : ConfigStats :=
  { storageSize := c.storage.length
    filesWatched := c.file.length
    cacheSize := c.typeCache.length
    isWatching := c.watcherActive }

/-- `Config.ClearCache()`: delete every entry of the type cache. -/
def clearCache (c : ConfigState) : ConfigState := { c with typeCache := [] }

/-- `extractFieldTypesWithCache`: return the cached field-type map for the
type identity, or compute it with `extractFieldTypesRecursive` and store
it.  The target struct type is given as its identity string plus its
fields. -/
def extractFieldTypesWithCache (c : ConfigState) (typeName : String)
    (fields : List (String × String × GoType)) :
    List (String × GoType) × ConfigState :=
  match lookupL c.typeCache typeName with
  | some cached => (cached, c)
  | none =>
    let ft := extractFieldTypesRecursive "" fields []
    (ft, { c with typeCache := upsert c.typeCache typeName ft })

end GoConfig

/-! Quick sanity checks of the parsers. -/

example : GoConfig.natToDec 0 = "0" := by decide
example : GoConfig.natToDec 1234 = "1234" := by decide
example : GoConfig.intToDec (-35) = "-35" := by decide
example : GoConfig.goParseBool "1" = some true := by decide
example : GoConfig.goAtoi "42" = some 42 := by decide
example : GoConfig.goAtoi "3.14" = none := by decide
example : GoConfig.goAtoi "+7" = some 7 := by decide
example : GoConfig.goAtoi "-7" = some (-7) := by decide
example : GoConfig.isFloatSyntax "3.14" = true := by decide
example : GoConfig.isFloatSyntax "abc" = false := by decide
example : GoConfig.isFloatSyntax "1e5" = true := by decide
example : GoConfig.isFloatSyntax "-2.5E-3" = true := by decide
example : GoConfig.isFloatSyntax "apple" = false := by decide
example : GoConfig.splitDot "servers.0.port" = ["servers", "0", "port"] := by decide
example : GoConfig.splitDot "" = [""] := by decide
example : GoConfig.splitDot "a." = ["a", ""] := by decide
example : GoConfig.joinDot ["servers", "port"] = "servers.port" := by decide

/-! # Lemma development -/

namespace GoConfig

/-! ## Decimal rendering: `natToDec` parses back, is digit-only, injective -/

theorem natToDecAux_congr (fl : Nat) : ∀ fl' n, n ≤ fl → n ≤ fl' →
    natToDecAux fl n = natToDecAux fl' n := by
  induction fl with
  | zero =>
    intro fl' n h h'
    have hn : n = 0 := Nat.le_zero.mp h
    subst hn
    cases fl' with
    | zero => rfl
    | succ g => simp [natToDecAux]
  | succ f ih =>
    intro fl' n h h'
    cases fl' with
    | zero =>
      have hn : n = 0 := Nat.le_zero.mp h'
      subst hn
      simp [natToDecAux]
    | succ g =>
      simp only [natToDecAux]
      by_cases h10 : n < 10
      · simp [h10]
      · simp only [h10, if_false]
        have hdiv : n / 10 < n := Nat.div_lt_self (by omega) (by omega)
        rw [ih g (n / 10) (by omega) (by omega)]

theorem natToDecCore_eq (n : Nat) :
    natToDecCore n =
      if n < 10 then [digitCh n]
      else natToDecCore (n / 10) ++ [digitCh (n % 10)] := by
  unfold natToDecCore
  by_cases h10 : n < 10
  · cases n with
    | zero => simp [natToDecAux, h10]
    | succ m => simp [natToDecAux, h10]
  · have hn : n ≠ 0 := by omega
    cases n with
    | zero => omega
    | succ m =>
      simp only [natToDecAux, h10, if_false]
      have hdiv : (m + 1) / 10 < m + 1 := Nat.div_lt_self (by omega) (by omega)
      rw [natToDecAux_congr m ((m + 1) / 10) ((m + 1) / 10) (by omega) (by omega)]

theorem isDigitCh_digitCh {d : Nat} (h : d < 10) : isDigitCh (digitCh d) = true := by
  interval_cases d <;> decide

theorem digitVal_digitCh {d : Nat} (h : d < 10) : digitVal (digitCh d) = d := by
  interval_cases d <;> decide

theorem digitCh_ne_dot {d : Nat} (h : d < 10) : digitCh d ≠ '.' := by
  interval_cases d <;> decide

theorem digitCh_ne_plus {d : Nat} (h : d < 10) : digitCh d ≠ '+' := by
  interval_cases d <;> decide

theorem digitCh_ne_minus {d : Nat} (h : d < 10) : digitCh d ≠ '-' := by
  interval_cases d <;> decide

theorem natToDecCore_ne_nil (n : Nat) : natToDecCore n ≠ [] := by
  rw [natToDecCore_eq]
  by_cases h : n < 10 <;> simp [h]

theorem natToDecCore_all_digits (n : Nat) : ∀ c ∈ natToDecCore n, isDigitCh c := by
  induction n using Nat.strong_induction_on with
  | _ n ih =>
    rw [natToDecCore_eq]
    by_cases h : n < 10
    · simp only [h, if_true, List.mem_singleton]
      rintro c rfl
      exact isDigitCh_digitCh h
    · simp only [h, if_false, List.mem_append, List.mem_singleton]
      rintro c (hc | rfl)
      · exact ih (n / 10) (Nat.div_lt_self (by omega) (by omega)) c hc
      · exact isDigitCh_digitCh (Nat.mod_lt _ (by omega))

theorem decValue_append_singleton (l : List Char) (c : Char) :
    decValue (l ++ [c]) = decValue l * 10 + digitVal c := by
  simp [decValue, List.foldl_append]

theorem decValue_natToDecCore (n : Nat) : decValue (natToDecCore n) = n := by
  induction n using Nat.strong_induction_on with
  | _ n ih =>
    rw [natToDecCore_eq]
    by_cases h : n < 10
    · simp [h, decValue, digitVal_digitCh h]
    · simp only [h, if_false, decValue_append_singleton]
      rw [ih (n / 10) (Nat.div_lt_self (by omega) (by omega))]
      rw [digitVal_digitCh (Nat.mod_lt _ (by omega))]
      omega

theorem parseNatCore_natToDecCore (n : Nat) :
    parseNatCore (natToDecCore n) = some n := by
  unfold parseNatCore
  rw [if_pos, decValue_natToDecCore]
  refine ⟨natToDecCore_ne_nil n, ?_⟩
  rw [List.all_eq_true]
  exact natToDecCore_all_digits n

theorem natToDec_data (n : Nat) : (natToDec n).data = natToDecCore n := rfl

theorem natToDec_ne_empty (n : Nat) : natToDec n ≠ "" := by
  intro h
  exact natToDecCore_ne_nil n (congrArg String.data h)

theorem natToDec_no_dot (n : Nat) : (natToDec n).data.contains '.' = false := by
  rw [natToDec_data]
  rw [List.contains_eq_any_beq]
  simp only [List.any_eq_false]
  intro c hc
  have hd := natToDecCore_all_digits n c hc
  have : c ≠ '.' := by
    intro he
    subst he
    simp [isDigitCh] at hd
  simp [beq_iff_eq]
  intro he
  exact this he.symm

theorem natToDecCore_injective : Function.Injective natToDecCore := by
  intro a b h
  have := decValue_natToDecCore a
  rw [h, decValue_natToDecCore] at this
  exact this.symm

theorem natToDec_injective : Function.Injective natToDec := by
  intro a b h
  exact natToDecCore_injective (congrArg String.data h)

theorem goAtoi_natToDec {n : Nat} (h : (n : Int) ≤ 2 ^ 63 - 1) :
    goAtoi (natToDec n) = some (n : Int) := by
  unfold goAtoi
  rw [natToDec_data, natToDecCore_eq]
  by_cases h10 : n < 10
  · simp only [h10, if_true]
    have hplus := digitCh_ne_plus h10
    have hminus := digitCh_ne_minus h10
    simp only [hplus, hminus, if_false, ← natToDecCore_eq]
    have := parseNatCore_natToDecCore n
    rw [natToDecCore_eq] at this
    simp only [h10, if_true] at this
    simp [this]
    omega
  · simp only [h10, if_false]
    obtain ⟨c, rest, hrep⟩ : ∃ c rest, natToDecCore (n / 10) = c :: rest := by
      cases hc : natToDecCore (n / 10) with
      | nil => exact absurd hc (natToDecCore_ne_nil _)
      | cons c rest => exact ⟨c, rest, rfl⟩
    have hcd : isDigitCh c := natToDecCore_all_digits _ c (by rw [hrep]; simp)
    have hplus : c ≠ '+' := by
      intro he; subst he; simp [isDigitCh] at hcd
    have hminus : c ≠ '-' := by
      intro he; subst he; simp [isDigitCh] at hcd
    rw [hrep]
    simp only [List.cons_append, hplus, hminus, if_false]
    have := parseNatCore_natToDecCore n
    rw [natToDecCore_eq] at this
    simp only [h10, if_false] at this
    rw [hrep] at this
    simp only [List.cons_append] at this
    rw [this]
    simp
    omega

end GoConfig

namespace GoConfig

/-! ## Splitting and joining dotted paths -/

theorem splitOnCh_ne_nil (sep : Char) (l : List Char) : splitOnCh sep l ≠ [] := by
  cases l with
  | nil => simp [splitOnCh]
  | cons c rest =>
    simp only [splitOnCh]
    cases h : splitOnCh sep rest with
    | nil => simp
    | cons a t =>
      by_cases hc : c = sep <;> simp [hc]

theorem splitOnCh_no_sep {sep : Char} {l : List Char} (h : sep ∉ l) :
    splitOnCh sep l = [l] := by
  induction l with
  | nil => rfl
  | cons c rest ih =>
    simp only [List.mem_cons, not_or] at h
    simp only [splitOnCh, ih h.2]
    have : c ≠ sep := fun he => h.1 he.symm
    simp [this]

theorem splitOnCh_append_sep {sep : Char} {a : List Char} (t : List Char)
    (h : sep ∉ a) : splitOnCh sep (a ++ sep :: t) = a :: splitOnCh sep t := by
  induction a with
  | nil =>
    simp only [List.nil_append, splitOnCh]
    cases ht : splitOnCh sep t with
    | nil => exact absurd ht (splitOnCh_ne_nil sep t)
    | cons x y => simp
  | cons c rest ih =>
    simp only [List.mem_cons, not_or] at h
    rw [List.cons_append]
    simp only [splitOnCh]
    rw [ih h.2]
    have : c ≠ sep := fun he => h.1 he.symm
    simp [this]

theorem string_data_append (a b : String) : (a ++ b).data = a.data ++ b.data :=
  String.data_append a b

theorem string_ne_empty_iff_data {s : String} : s ≠ "" ↔ s.data ≠ [] := by
  constructor
  · intro h hd
    exact h (String.ext hd)
  · intro h he
    subst he
    exact h rfl

theorem joinDot_foldl_shift (t : List String) : ∀ a s : String,
    List.foldl (fun x y => x ++ "." ++ y) (a ++ "." ++ s) t =
      a ++ "." ++ List.foldl (fun x y => x ++ "." ++ y) s t := by
  induction t with
  | nil => intro a s; rfl
  | cons u t' ih =>
    intro a s
    simp only [List.foldl_cons]
    rw [String.append_assoc, String.append_assoc, ← String.append_assoc s "." u]
    exact ih a (s ++ "." ++ u)

theorem joinDot_cons_cons (a b : String) (t : List String) :
    joinDot (a :: b :: t) = a ++ "." ++ joinDot (b :: t) := by
  simp only [joinDot, List.foldl_cons]
  exact joinDot_foldl_shift t a b

theorem joinDot_data_cons (h : String) (t : List String) :
    (joinDot (h :: t)).data =
      h.data ++ (t.map (fun s => '.' :: s.data)).flatten := by
  induction t generalizing h with
  | nil => simp [joinDot]
  | cons s t' ih =>
    rw [joinDot_cons_cons, string_data_append, string_data_append, ih s]
    simp

theorem joinDot_ne_empty {h : String} (hh : h ≠ "") (t : List String) :
    joinDot (h :: t) ≠ "" := by
  rw [string_ne_empty_iff_data, joinDot_data_cons]
  rw [string_ne_empty_iff_data] at hh
  simp [hh]

theorem joinDot_append_singleton (h : String) (t : List String) (k : String) :
    joinDot (h :: t ++ [k]) = joinDot (h :: t) ++ "." ++ k := by
  simp only [joinDot, List.cons_append, List.foldl_append, List.foldl_cons,
    List.foldl_nil]

theorem extKey_joinDot {pre : List String} (k : String)
    (h : ∀ s ∈ pre, s ≠ "") : extKey (joinDot pre) k = joinDot (pre ++ [k]) := by
  cases pre with
  | nil => simp [extKey, joinDot]
  | cons p t =>
    have hp : p ≠ "" := h p (by simp)
    rw [extKey, if_neg (joinDot_ne_empty hp t), joinDot_append_singleton]

theorem contains_false_iff (c : Char) (l : List Char) :
    l.contains c = false ↔ c ∉ l := by
  rw [List.contains_eq_any_beq]
  simp only [List.any_eq_false, beq_iff_eq]
  exact ⟨fun h hm => h c hm rfl, fun h x hx he => h (he ▸ hx)⟩

theorem splitDot_joinDot {l : List String} (hne : l ≠ [])
    (hdf : ∀ s ∈ l, s.data.contains '.' = false) :
    splitDot (joinDot l) = l := by
  induction l with
  | nil => exact absurd rfl hne
  | cons h t ih =>
    cases t with
    | nil =>
      have hdot : ('.' : Char) ∉ h.data :=
        (contains_false_iff _ _).mp (hdf h (by simp))
      simp only [joinDot, List.foldl_nil, splitDot, splitOnCh_no_sep hdot,
        List.map_cons, List.map_nil]
    | cons s t' =>
      rw [joinDot_cons_cons]
      have hdot : ('.' : Char) ∉ h.data :=
        (contains_false_iff _ _).mp (hdf h (by simp))
      have hdata : (h ++ "." ++ joinDot (s :: t')).data =
          h.data ++ '.' :: (joinDot (s :: t')).data := by
        rw [string_data_append, string_data_append]
        simp
      unfold splitDot
      rw [hdata, splitOnCh_append_sep _ hdot, List.map_cons]
      have ihr := ih (by simp) (fun x hx => hdf x (by simp [hx]))
      unfold splitDot at ihr
      rw [ihr]

theorem joinDot_injective {l₁ l₂ : List String} (h1 : l₁ ≠ []) (h2 : l₂ ≠ [])
    (hd1 : ∀ s ∈ l₁, s.data.contains '.' = false)
    (hd2 : ∀ s ∈ l₂, s.data.contains '.' = false)
    (he : joinDot l₁ = joinDot l₂) : l₁ = l₂ := by
  have := splitDot_joinDot h1 hd1
  rw [he, splitDot_joinDot h2 hd2] at this
  exact this.symm

end GoConfig

namespace GoConfig

/-! ## Association-list (Go map) lemmas -/

theorem lookupL_upsert_self {α : Type} (m : List (String × α)) (k : String) (v : α) :
    lookupL (upsert m k v) k = some v := by
  induction m with
  | nil => simp [upsert, lookupL]
  | cons kv rest ih =>
    obtain ⟨k', v'⟩ := kv
    by_cases h : k' = k
    · subst h
      simp [upsert, lookupL]
    · simp [upsert, lookupL, h, ih]

theorem lookupL_upsert_ne {α : Type} (m : List (String × α)) {k k' : String}
    (v : α) (h : k' ≠ k) : lookupL (upsert m k v) k' = lookupL m k' := by
  have hkk : ¬k = k' := fun he => h he.symm
  induction m with
  | nil =>
    simp only [upsert, lookupL]
    rw [if_neg hkk]
  | cons kv rest ih =>
    obtain ⟨k0, v0⟩ := kv
    by_cases h0 : k0 = k
    · subst h0
      simp only [upsert, if_pos rfl, lookupL]
      rw [if_neg hkk, if_neg hkk]
    · simp only [upsert, if_neg h0, lookupL]
      by_cases h1 : k0 = k'
      · simp [h1]
      · simp [h1, ih]

theorem upsert_fresh {α : Type} {m : List (String × α)} {k : String}
    (h : lookupL m k = none) (v : α) : upsert m k v = m ++ [(k, v)] := by
  induction m with
  | nil => rfl
  | cons kv rest ih =>
    obtain ⟨k0, v0⟩ := kv
    simp only [lookupL] at h
    by_cases h0 : k0 = k
    · simp [h0] at h
    · simp only [if_neg h0] at h
      simp [upsert, h0, ih h]

theorem upsert_upsert_same {α : Type} (m : List (String × α)) (k : String)
    (v w : α) : upsert (upsert m k v) k w = upsert m k w := by
  induction m with
  | nil => simp [upsert]
  | cons kv rest ih =>
    obtain ⟨k0, v0⟩ := kv
    by_cases h0 : k0 = k
    · simp [upsert, h0]
    · simp [upsert, h0, ih]

theorem lookupL_append {α : Type} (a b : List (String × α)) (k : String) :
    lookupL (a ++ b) k =
      match lookupL a k with
      | some v => some v
      | none => lookupL b k := by
  induction a with
  | nil => simp [lookupL]
  | cons kv rest ih =>
    obtain ⟨k0, v0⟩ := kv
    by_cases h0 : k0 = k
    · simp [lookupL, h0]
    · simp [lookupL, h0, ih]

theorem lookupL_eq_none_iff {α : Type} (m : List (String × α)) (k : String) :
    lookupL m k = none ↔ k ∉ m.map Prod.fst := by
  induction m with
  | nil => simp [lookupL]
  | cons kv rest ih =>
    obtain ⟨k0, v0⟩ := kv
    by_cases h0 : k0 = k
    · subst h0
      simp [lookupL]
    · rw [lookupL, if_neg h0, ih]
      have hkk : ¬k = k0 := fun he => h0 he.symm
      simp [hkk]

theorem lookupL_mem {α : Type} {m : List (String × α)} {k : String} {v : α}
    (h : lookupL m k = some v) : (k, v) ∈ m := by
  induction m with
  | nil => simp [lookupL] at h
  | cons kv rest ih =>
    obtain ⟨k0, v0⟩ := kv
    by_cases h0 : k0 = k
    · subst h0
      simp [lookupL] at h
      subst h
      simp
    · simp only [lookupL, if_neg h0] at h
      simp [ih h]

theorem lookupL_isSome_of_mem {α : Type} {m : List (String × α)} {k : String}
    {v : α} (h : (k, v) ∈ m) : (lookupL m k).isSome := by
  induction m with
  | nil => simp at h
  | cons kv rest ih =>
    obtain ⟨k0, v0⟩ := kv
    simp only [List.mem_cons] at h
    rcases h with h | h
    · rw [Prod.mk.injEq] at h
      obtain ⟨rfl, rfl⟩ := h
      simp [lookupL]
    · simp only [lookupL]
      by_cases h0 : k0 = k
      · simp [h0]
      · simp [h0, ih h]

/-! ## Write sequences: `applyWrites` realizes last-write-wins -/

theorem lookupL_applyWrites (ws : List (String × String)) :
    ∀ (s : List (String × String)) (k : String),
    lookupL (applyWrites s ws) k =
      match wget ws k with
      | some v => some v
      | none => lookupL s k := by
  induction ws with
  | nil => intro s k; simp [applyWrites, wget]
  | cons kv rest ih =>
    intro s k
    obtain ⟨k0, v0⟩ := kv
    simp only [applyWrites, List.foldl_cons] at *
    rw [ih (upsert s k0 v0) k]
    simp only [wget]
    cases hw : wget rest k with
    | some v => simp
    | none =>
      by_cases h0 : k0 = k
      · subst h0
        simp [lookupL_upsert_self]
      · simp [h0, lookupL_upsert_ne _ _ (fun he => h0 he.symm)]

end GoConfig

namespace GoConfig

/-! ## Integer rendering parses back (canonicity) -/

theorem goAtoi_intToDec {n : Int} (h1 : -(2 ^ 63) ≤ n) (h2 : n < 2 ^ 63) :
    goAtoi (intToDec n) = some n := by
  unfold intToDec
  by_cases hn : n < 0
  · rw [if_pos hn]
    unfold goAtoi
    have hdata : ("-" ++ natToDec n.natAbs).data = '-' :: natToDecCore n.natAbs := by
      rw [string_data_append]
      rfl
    rw [hdata]
    simp only [eq_false (show ¬('-' : Char) = '+' by decide),
      eq_self_iff_true, if_false, if_true]
    rw [parseNatCore_natToDecCore]
    have hle : (n.natAbs : Int) ≤ 2 ^ 63 := by omega
    simp only [Option.some_bind]
    rw [if_pos hle]
    congr 1
    omega
  · rw [if_neg hn]
    have hle : (n.natAbs : Int) ≤ 2 ^ 63 - 1 := by omega
    rw [goAtoi_natToDec hle]
    congr 1
    omega

/-! ## Claim theorems: auto-detection, type preservation, flatten rendering,
empty-map boundary -/

/-- C2 (corrected): on the code, the untyped value `"1"` auto-detects to
**boolean true**, because `strconv.ParseBool` accepts `"1"`; it does not
become the integer 1 as the claim states. -/
theorem auto_detect_one_cex :
    convertValueByTargetType "k" "1" [] ≠ JSON.i 1 ∧
    convertValueByTargetType "k" "1" [] = JSON.b true := by
  constructor
  · intro h
    rw [show convertValueByTargetType "k" "1" [] = JSON.b true from rfl] at h
    exact JSON.noConfusion h
  · rfl

/-- C2 (amended): for every value at a path with no shape entry (also after
stripping integer segments), reconstruction auto-detects by trying bool,
then integer, then float, then defaulting to string, first successful parse
winning; `"true"` becomes boolean true, `"42"` integer 42, `"3.14"` float
3.14, `"abc"` the string `"abc"` — but `"1"` becomes boolean true (not
integer 1), since `strconv.ParseBool` accepts `"1"`. -/
theorem auto_detection_order :
    (∀ key value ft, lookupL ft key = none →
      lookupL ft (removeArrayIndex key) = none →
      convertValueByTargetType key value ft = convertStringToJSONType value) ∧
    convertStringToJSONType "true" = .b true ∧
    convertStringToJSONType "42" = .i 42 ∧
    convertStringToJSONType "3.14" = .f "3.14" ∧
    convertStringToJSONType "abc" = .s "abc" ∧
    convertStringToJSONType "1" = .b true ∧
    (∀ value bv, goParseBool value = some bv →
      convertStringToJSONType value = .b bv) ∧
    (∀ value n, goParseBool value = none → goAtoi value = some n →
      convertStringToJSONType value = .i n) ∧
    (∀ value, goParseBool value = none → goAtoi value = none →
      isFloatSyntax value = true → convertStringToJSONType value = .f value) ∧
    (∀ value, goParseBool value = none → goAtoi value = none →
      isFloatSyntax value = false → convertStringToJSONType value = .s value) := by
  refine ⟨?_, rfl, rfl, rfl, rfl, rfl, ?_, ?_, ?_, ?_⟩
  · intro key value ft h1 h2
    unfold convertValueByTargetType
    rw [h1, h2]
  · intro value bv h
    unfold convertStringToJSONType
    rw [h]
  · intro value n h1 h2
    unfold convertStringToJSONType
    rw [h1, h2]
  · intro value h1 h2 h3
    unfold convertStringToJSONType
    rw [h1, h2, h3]
    rfl
  · intro value h1 h2 h3
    unfold convertStringToJSONType
    rw [h1, h2, h3]
    rfl

/-- Witness for `auto_detection_order`: its conditional parts applied at
concrete inputs. -/
theorem auto_detection_order_witness :
    convertValueByTargetType "some.path" "1" [("other", .tInt)] =
      convertStringToJSONType "1" ∧
    convertStringToJSONType "1" = .b true ∧
    convertStringToJSONType "t" = .b true ∧
    convertStringToJSONType "99" = .i 99 ∧
    convertStringToJSONType "2.5" = .f "2.5" ∧
    convertStringToJSONType "hello" = .s "hello" :=
  ⟨auto_detection_order.1 "some.path" "1" [("other", .tInt)] rfl rfl,
   auto_detection_order.2.2.2.2.2.1,
   auto_detection_order.2.2.2.2.2.2.1 "t" true rfl,
   auto_detection_order.2.2.2.2.2.2.2.1 "99" 99 rfl rfl,
   auto_detection_order.2.2.2.2.2.2.2.2.1 "2.5" rfl rfl rfl,
   auto_detection_order.2.2.2.2.2.2.2.2.2 "hello" rfl rfl rfl⟩

/-- C5 (confirmed): a shape entry declaring kind string returns the stored
value verbatim, even when it parses as a number. -/
theorem string_shape_preserves_value (p v : String) (ft : List (String × GoType))
    (h : lookupL ft p = some .tString) :
    convertValueByTargetType p v ft = .s v := by
  unfold convertValueByTargetType
  rw [h]

/-- Witness for `string_shape_preserves_value`: `"0001234"` at a
string-typed path stays the string `"0001234"` although `strconv.Atoi`
accepts it (as 1234). -/
theorem string_shape_preserves_value_witness :
    convertValueByTargetType "user.id" "0001234" [("user.id", .tString)] =
      .s "0001234" ∧
    goAtoi "0001234" = some 1234 :=
  ⟨string_shape_preserves_value "user.id" "0001234" [("user.id", .tString)] rfl,
   rfl⟩

/-- C6 (corrected): flattening renders integers in canonical decimal form
(they parse back) and booleans as `true`/`false`, but a null value **does**
write its key — with the string `"<nil>"` (`fmt.Sprintf("%v", nil)`) —
rather than being omitted. -/
theorem flatten_null_writes_key_cex :
    flattenJSON "" [("a", JSON.null)] ≠ [] ∧
    flattenJSON "" [("a", JSON.null)] = [("a", "<nil>")] := by
  have h : flattenJSON "" [("a", JSON.null)] = [("a", "<nil>")] := by
    simp [flattenJSON, flattenEntry, extKey, goFmt]
  exact ⟨by rw [h]; simp, h⟩

/-- C6 (amended): numbers are rendered in canonical decimal form (the
rendering parses back to the same value) and booleans as `true`/`false`;
null values are not omitted — each writes its key with the string
`"<nil>"`. -/
theorem flatten_scalar_rendering (k : String) (n : Int) (bv : Bool) :
    flattenJSON "" [(k, .i n)] = [(k, intToDec n)] ∧
    (-(2 ^ 63) ≤ n → n < 2 ^ 63 → goAtoi (intToDec n) = some n) ∧
    flattenJSON "" [(k, .b bv)] = [(k, if bv then "true" else "false")] ∧
    goParseBool (if bv then "true" else "false") = some bv ∧
    flattenJSON "" [(k, .null)] = [(k, "<nil>")] := by
  refine ⟨?_, fun h1 h2 => goAtoi_intToDec h1 h2, ?_, ?_, ?_⟩
  · simp [flattenJSON, flattenEntry, extKey, goFmt]
  · cases bv <;> simp [flattenJSON, flattenEntry, extKey, goFmt]
  · cases bv <;> rfl
  · simp [flattenJSON, flattenEntry, extKey, goFmt]

/-- Witness for `flatten_scalar_rendering` at concrete inputs. -/
theorem flatten_scalar_rendering_witness :
    flattenJSON "" [("count", .i (-35))] = [("count", "-35")] ∧
    goAtoi "-35" = some (-35) ∧
    flattenJSON "" [("debug", .b true)] = [("debug", "true")] := by
  refine ⟨?_, ?_, (flatten_scalar_rendering "debug" 0 true).2.2.1⟩
  · have h := (flatten_scalar_rendering "count" (-35) true).1
    rw [h]
    rfl
  · have h := (flatten_scalar_rendering "count" (-35) true).2.1 (by norm_num)
      (by norm_num)
    rw [show intToDec (-35) = "-35" from rfl] at h
    exact h

/-- C10 (confirmed): a mapping with zero keys is rejected by the numeric
check and is never converted to a list, at top level and nested. -/
theorem empty_map_never_array :
    isNumericArrayMap ([] : List (String × JSON)) = false ∧
    convertMapToArrayRecursive (.obj []) = .obj [] ∧
    convertMapToArrayRecursive (.obj [("a", .obj [])]) =
      .obj [("a", .obj [])] := by
  refine ⟨rfl, ?_, ?_⟩
  · simp [convertMapToArrayRecursive, isNumericArrayMap, convFields]
  · rw [show convertMapToArrayRecursive (.obj [("a", .obj [])]) =
        if isNumericArrayMap [("a", JSON.obj [])] then
          .arr (convertToArray (convFields [("a", .obj [])]))
        else .obj (convFields [("a", .obj [])]) from by
      simp [convertMapToArrayRecursive]]
    rw [if_neg (by decide)]
    simp [convFields, convertMapToArrayRecursive, isNumericArrayMap]

end GoConfig

namespace GoConfig

/-! ## Reload and open -/

theorem readFiles_append_ok (fs : String → Option (List (String × String)))
    (pre : List String) (hpre : ∀ g ∈ pre, (fs g).isSome) (l : List String) :
    ∀ c : ConfigState, readFiles fs (pre ++ l) c =
      readFiles fs l
        { c with storage :=
            pre.foldl (fun s g => applyWrites s ((fs g).getD [])) c.storage } := by
  induction pre with
  | nil => intro c; rfl
  | cons g pre' ih =>
    intro c
    obtain ⟨ws, hw⟩ := Option.isSome_iff_exists.mp (hpre g (by simp))
    simp only [List.cons_append, readFiles, hw, List.foldl_cons, List.append_eq]
    rw [ih (fun x hx => hpre x (by simp [hx]))]
    rfl

/-- C1 (corrected, counterexample): a failing reload does **not** keep the
previous flat store: `Reload` resets the storage before re-reading, so
after a reload that fails on its (only) source file, a key that was
readable before is gone. -/
theorem reload_failure_loses_key_cex :
    lookupL (ConfigState.mk [("a", "1")] ["app.json"] [] true).storage "a" =
      some "1" ∧
    (reload (fun _ => none) (ConfigState.mk [("a", "1")] ["app.json"] [] true)).1.isSome
      = true ∧
    lookupL (reload (fun _ => none)
        (ConfigState.mk [("a", "1")] ["app.json"] [] true)).2.storage "a" =
      none := by
  exact ⟨rfl, rfl, rfl⟩

/-- C1 (amended): when `Reload` fails at some source file, the previous
storage has already been discarded: the storage left behind is exactly the
merge of the sources that were re-read successfully before the failing one
(starting from empty), not the pre-reload snapshot. -/
theorem reload_failure_discards_previous_store
    (fs : String → Option (List (String × String))) (c : ConfigState)
    (pre : List String) (f : String) (rest : List String)
    (hfile : c.file = pre ++ f :: rest)
    (hpre : ∀ g ∈ pre, (fs g).isSome)
    (hf : fs f = none) :
    (reload fs c).1.isSome = true ∧
    (reload fs c).2.storage =
      pre.foldl (fun s g => applyWrites s ((fs g).getD [])) [] := by
  unfold reload
  rw [hfile]
  rw [if_neg (by simp)]
  rw [readFiles_append_ok fs pre hpre (f :: rest)]
  simp only [readFiles, hf]
  exact ⟨rfl, trivial⟩

/-- Witness for `reload_failure_discards_previous_store`: one good source,
then a missing one; the storage ends as the good source's writes, and the
old entry is gone. -/
theorem reload_failure_discards_previous_store_witness :
    (reload
        (fun g => if g = "good.conf" then some [("x", "1")] else none)
        (ConfigState.mk [("old", "0")] ["good.conf", "bad.conf"] [] true)).1.isSome
      = true ∧
    (reload
        (fun g => if g = "good.conf" then some [("x", "1")] else none)
        (ConfigState.mk [("old", "0")] ["good.conf", "bad.conf"] [] true)).2.storage
      = [("x", "1")] := by
  have h := reload_failure_discards_previous_store
    (fun g => if g = "good.conf" then some [("x", "1")] else none)
    (ConfigState.mk [("old", "0")] ["good.conf", "bad.conf"] [] true)
    ["good.conf"] "bad.conf" []
    rfl (by intro g hg; simp at hg; subst hg; rfl) rfl
  exact ⟨h.1, by rw [h.2]; rfl⟩

/-- C8 (confirmed): opening two sources in order, the second source's value
wins for every key both define (the storage holds the second source's last
write for that key). -/
theorem open_second_source_wins
    (fs : String → Option (List (String × String))) (c : ConfigState)
    (a b : String) (wa wb : List (String × String))
    (ha : fs a = some wa) (hb : fs b = some wb) :
    (openConfig fs c [a, b]).1 = none ∧
    ∀ k, (wget wa k).isSome → (wget wb k).isSome →
      lookupL (openConfig fs c [a, b]).2.storage k = wget wb k := by
  unfold openConfig
  rw [if_neg (by simp)]
  simp only [readFiles, ha, hb]
  refine ⟨by simp, ?_⟩
  intro k _ hkb
  obtain ⟨v, hv⟩ := Option.isSome_iff_exists.mp hkb
  show lookupL (applyWrites (applyWrites [] wa) wb) k = wget wb k
  rw [lookupL_applyWrites wb _ k, hv]

/-- Witness for `open_second_source_wins`: `key` is defined by both sources
and ends with the second source's value. -/
theorem open_second_source_wins_witness :
    (openConfig
        (fun g => if g = "a.conf" then some [("key", "1"), ("only_a", "x")]
                  else some [("key", "2")])
        (ConfigState.mk [] [] [] false) ["a.conf", "b.conf"]).1 = none ∧
    lookupL (openConfig
        (fun g => if g = "a.conf" then some [("key", "1"), ("only_a", "x")]
                  else some [("key", "2")])
        (ConfigState.mk [] [] [] false) ["a.conf", "b.conf"]).2.storage "key" =
      some "2" := by
  have h := open_second_source_wins
    (fun g => if g = "a.conf" then some [("key", "1"), ("only_a", "x")]
              else some [("key", "2")])
    (ConfigState.mk [] [] [] false) "a.conf" "b.conf"
    [("key", "1"), ("only_a", "x")] [("key", "2")] rfl rfl
  exact ⟨h.1, by rw [h.2 "key" rfl rfl]; rfl⟩

/-! ## Cache clearing -/

/-- C9 (confirmed): after `ClearCache`, `GetStats` reports a cached-shape
count of zero (storage and file statistics unchanged), and a shape map
previously returned by `extractFieldTypesWithCache` is unaffected: it is
(still) exactly the extraction of the target type, and recomputing it
after the clear yields the same map. -/
theorem clear_cache_resets_stats_preserves_maps
    (c : ConfigState) (tn : String)
    (fields : List (String × String × GoType))
    (hcoh : lookupL c.typeCache tn = none ∨
      lookupL c.typeCache tn = some (extractFieldTypesRecursive "" fields [])) :
    (getStats (clearCache (extractFieldTypesWithCache c tn fields).2)).cacheSize
      = 0 ∧
    (getStats (clearCache (extractFieldTypesWithCache c tn fields).2)).storageSize
      = c.storage.length ∧
    (getStats (clearCache (extractFieldTypesWithCache c tn fields).2)).filesWatched
      = c.file.length ∧
    (extractFieldTypesWithCache c tn fields).1 =
      extractFieldTypesRecursive "" fields [] ∧
    (extractFieldTypesWithCache
        (clearCache (extractFieldTypesWithCache c tn fields).2) tn fields).1 =
      (extractFieldTypesWithCache c tn fields).1 := by
  rcases hcoh with h | h
  · unfold extractFieldTypesWithCache
    rw [h]
    refine ⟨rfl, rfl, rfl, rfl, ?_⟩
    simp [clearCache, lookupL]
  · unfold extractFieldTypesWithCache
    rw [h]
    refine ⟨rfl, rfl, rfl, rfl, ?_⟩
    simp [clearCache, lookupL, h]

/-- Witness for `clear_cache_resets_stats_preserves_maps` on a fresh cache. -/
theorem clear_cache_resets_stats_preserves_maps_witness :
    (getStats (clearCache
      (extractFieldTypesWithCache
        (ConfigState.mk [("k", "v")] ["a.conf"] [] false) "main.AppConfig"
        [("Port", "port", .tInt)]).2)).cacheSize = 0 ∧
    (extractFieldTypesWithCache
        (ConfigState.mk [("k", "v")] ["a.conf"] [] false) "main.AppConfig"
        [("Port", "port", .tInt)]).1 = [("port", .tInt)] := by
  have h := clear_cache_resets_stats_preserves_maps
    (ConfigState.mk [("k", "v")] ["a.conf"] [] false) "main.AppConfig"
    [("Port", "port", .tInt)] (Or.inl rfl)
  refine ⟨h.1, ?_⟩
  rw [h.2.2.2.1]
  rfl

end GoConfig

namespace GoConfig

/-! ## The numeric-array boundary (`isNumericArrayMap` / `convertToArray`) -/

theorem convFields_length (m : List (String × JSON)) :
    (convFields m).length = m.length := by
  induction m with
  | nil => rfl
  | cons kv rest ih => simp [convFields, ih]

theorem lookupL_convFields (m : List (String × JSON)) (k : String) :
    lookupL (convFields m) k = (lookupL m k).map convertMapToArrayRecursive := by
  induction m with
  | nil => simp [convFields, lookupL]
  | cons kv rest ih =>
    obtain ⟨k0, v0⟩ := kv
    by_cases h0 : k0 = k
    · simp [convFields, lookupL, h0]
    · simp [convFields, lookupL, h0, ih]

theorem convertMapToArrayRecursive_obj (m : List (String × JSON)) :
    convertMapToArrayRecursive (.obj m) =
      if isNumericArrayMap m then .arr (convertToArray (convFields m))
      else .obj (convFields m) := by
  simp [convertMapToArrayRecursive]

theorem lookupL_isSome_mem_keys {α : Type} {m : List (String × α)} {k : String}
    (h : (lookupL m k).isSome) : k ∈ m.map Prod.fst := by
  by_contra hk
  rw [← lookupL_eq_none_iff] at hk
  rw [hk] at h
  simp at h

theorem ne_natToDec_of_nondigit {k : String} {c : Char} (hc : c ∈ k.data)
    (hnd : ¬isDigitCh c) (j : Nat) : k ≠ natToDec j := by
  intro he
  subst he
  exact hnd (natToDecCore_all_digits j c hc)

/-- C4 (confirmed): a mapping whose keys are exactly the decimal integers
`0..n-1` (n ≥ 1) reconstructs to an ordered list of length n whose element
`i` comes from key `i`; a mapping with a gap, or (having distinct keys)
with a non-numeric key, is never converted and remains a mapping. -/
theorem numeric_array_map_boundary (m : List (String × JSON)) (n : Nat) :
    (1 ≤ n → m.length = n → (∀ i < n, (lookupL m (natToDec i)).isSome) →
      convertMapToArrayRecursive (.obj m) =
        .arr ((List.range n).map fun i =>
          convertMapToArrayRecursive ((lookupL m (natToDec i)).getD .null)) ∧
      ((List.range n).map fun i =>
        convertMapToArrayRecursive ((lookupL m (natToDec i)).getD .null)).length
        = n) ∧
    ((∃ i < m.length, lookupL m (natToDec i) = none) →
      convertMapToArrayRecursive (.obj m) = .obj (convFields m)) ∧
    ((m.map Prod.fst).Nodup →
      (∃ k ∈ m.map Prod.fst, ∀ j : Nat, k ≠ natToDec j) →
      convertMapToArrayRecursive (.obj m) = .obj (convFields m)) := by
  refine ⟨?_, ?_, ?_⟩
  · intro hn hlen hall
    have hne : m ≠ [] := by
      intro he
      subst he
      simp at hlen
      omega
    have hnum : isNumericArrayMap m = true := by
      unfold isNumericArrayMap
      rw [Bool.and_eq_true, List.all_eq_true]
      constructor
      · cases m with
        | nil => exact absurd rfl hne
        | cons a t => rfl
      · intro i hi
        rw [List.mem_range, hlen] at hi
        exact hall i hi
    rw [convertMapToArrayRecursive_obj, if_pos hnum]
    refine ⟨?_, by simp⟩
    unfold convertToArray
    rw [convFields_length, hlen]
    congr 1
    apply List.map_congr_left
    intro i hi
    rw [List.mem_range] at hi
    rw [lookupL_convFields]
    obtain ⟨v, hv⟩ := Option.isSome_iff_exists.mp (hall i hi)
    rw [hv]
    rfl
  · rintro ⟨i, hi, hnone⟩
    rw [convertMapToArrayRecursive_obj, if_neg ?_]
    unfold isNumericArrayMap
    rw [Bool.and_eq_true, List.all_eq_true]
    rintro ⟨-, hall⟩
    have := hall i (by rwa [List.mem_range])
    rw [hnone] at this
    simp at this
  · intro hnd ⟨k, hk, hknum⟩
    rw [convertMapToArrayRecursive_obj, if_neg ?_]
    unfold isNumericArrayMap
    rw [Bool.and_eq_true, List.all_eq_true]
    rintro ⟨-, hall⟩
    -- the n distinct keys would have to include all of 0..n-1 plus k
    have hsub : ∀ x ∈ k :: (List.range m.length).map natToDec,
        x ∈ m.map Prod.fst := by
      intro x hx
      rcases List.mem_cons.mp hx with rfl | hx
      · exact hk
      · obtain ⟨i, hi, rfl⟩ := List.mem_map.mp hx
        rw [List.mem_range] at hi
        exact lookupL_isSome_mem_keys (hall i (by rwa [List.mem_range]))
    have hnddec : (k :: (List.range m.length).map natToDec).Nodup := by
      refine List.nodup_cons.mpr ⟨?_, ?_⟩
      · intro hmem
        obtain ⟨i, _, hik⟩ := List.mem_map.mp hmem
        exact hknum i hik.symm
      · exact (List.nodup_range _).map natToDec_injective
    have hsp := (List.subperm_of_subset hnddec hsub).length_le
    simp at hsp

/-- Witness for `numeric_array_map_boundary`: a complete two-key numeric
map becomes a two-element array; `{"0","2"}` (gap at 1) and `{"a"}`
(non-numeric) remain mappings. -/
theorem numeric_array_map_boundary_witness :
    convertMapToArrayRecursive (.obj [("0", .s "x"), ("1", .s "y")]) =
      .arr [.s "x", .s "y"] ∧
    convertMapToArrayRecursive (.obj [("0", .s "x"), ("2", .s "y")]) =
      .obj [("0", .s "x"), ("2", .s "y")] ∧
    convertMapToArrayRecursive (.obj [("a", .i 5)]) = .obj [("a", .i 5)] := by
  refine ⟨?_, ?_, ?_⟩
  · have h := (numeric_array_map_boundary [("0", .s "x"), ("1", .s "y")] 2).1
      (by norm_num) rfl ?_
    · rw [h.1, show List.range 2 = [0, 1] from rfl]
      simp only [List.map_cons, List.map_nil]
      rw [show natToDec 0 = "0" from rfl, show natToDec 1 = "1" from rfl]
      simp [lookupL, convertMapToArrayRecursive]
    · intro i hi
      interval_cases i
      · rw [show natToDec 0 = "0" from rfl]
        rfl
      · rw [show natToDec 1 = "1" from rfl]
        rfl
  · have h := (numeric_array_map_boundary [("0", .s "x"), ("2", .s "y")] 0).2.1
      ⟨1, by norm_num, by rw [show natToDec 1 = "1" from rfl]; rfl⟩
    rw [h]
    simp [convFields, convertMapToArrayRecursive]
  · have h := (numeric_array_map_boundary [("a", .i 5)] 0).2.2
      (by simp)
      ⟨"a", by simp, ne_natToDec_of_nondigit (k := "a") (c := 'a')
        (by simp) (by decide)⟩
    rw [h]
    simp [convFields, convertMapToArrayRecursive]

end GoConfig

namespace GoConfig

/-! ## Shape extraction: fuel congruence and the slice-of-struct rule -/

theorem gtsize_pos (t : GoType) : 1 ≤ gtsize t := by
  cases t <;> simp [gtsize]

theorem gfsize_pos (fields : List (String × String × GoType)) :
    1 ≤ gfsize fields := by
  cases fields with
  | nil => simp [gfsize]
  | cons fd rest =>
    obtain ⟨n, tg, ty⟩ := fd
    simp only [gfsize]
    omega

theorem extractFTRAux_nil (f : Nat) (pre : String) (ft : List (String × GoType)) :
    extractFTRAux f pre [] ft = ft := by
  cases f <;> rfl

theorem extractFTRAux_congr : ∀ (f1 : Nat) (f2 : Nat) (pre : String)
    (fields : List (String × String × GoType)) (ft : List (String × GoType)),
    gfsize fields ≤ f1 → gfsize fields ≤ f2 →
    extractFTRAux f1 pre fields ft = extractFTRAux f2 pre fields ft := by
  intro f1
  induction f1 with
  | zero =>
    intro f2 pre fields ft h1 h2
    have := gfsize_pos fields
    omega
  | succ g1 ih =>
    intro f2 pre fields ft h1 h2
    cases f2 with
    | zero =>
      have := gfsize_pos fields
      omega
    | succ g2 =>
      cases fields with
      | nil => rfl
      | cons fd rest =>
        obtain ⟨name, tag, ty⟩ := fd
        have hsz : gfsize ((name, tag, ty) :: rest) = 1 + gtsize ty + gfsize rest :=
          rfl
        rw [hsz] at h1 h2
        have hty := gtsize_pos ty
        simp only [extractFTRAux]
        by_cases htag : tag = "" ∨ tag = "-"
        · rw [if_pos htag, if_pos htag]
          exact ih g2 pre rest ft (by omega) (by omega)
        · rw [if_neg htag, if_neg htag]
          cases ty with
          | tStruct sfields =>
            have hs : gtsize (GoType.tStruct sfields) = 1 + gfsize sfields := rfl
            rw [hs] at h1 h2
            have hinner := ih g2 (extKey pre (tagFieldName name tag)) sfields ft
              (by omega) (by omega)
            show extractFTRAux g1 pre rest
                (extractFTRAux g1 (extKey pre (tagFieldName name tag)) sfields ft)
              = extractFTRAux g2 pre rest
                (extractFTRAux g2 (extKey pre (tagFieldName name tag)) sfields ft)
            rw [hinner]
            exact ih g2 pre rest _ (by omega) (by omega)
          | tSlice e =>
            cases e with
            | tStruct sfields =>
              have hs : gtsize (GoType.tSlice (.tStruct sfields)) =
                  2 + gfsize sfields := by
                simp only [gtsize]
                omega
              rw [hs] at h1 h2
              have hinner := ih g2 (extKey pre (tagFieldName name tag)) sfields ft
                (by omega) (by omega)
              show extractFTRAux g1 pre rest
                  (extractFTRAux g1 (extKey pre (tagFieldName name tag)) sfields
                    ft)
                = extractFTRAux g2 pre rest
                  (extractFTRAux g2 (extKey pre (tagFieldName name tag)) sfields
                    ft)
              rw [hinner]
              exact ih g2 pre rest _ (by omega) (by omega)
            | _ =>
              exact ih g2 pre rest _ (by omega) (by omega)
          | tPtr e =>
            cases e with
            | tStruct sfields =>
              have hs : gtsize (GoType.tPtr (.tStruct sfields)) =
                  2 + gfsize sfields := by
                simp only [gtsize]
                omega
              rw [hs] at h1 h2
              have hinner := ih g2 (extKey pre (tagFieldName name tag)) sfields ft
                (by omega) (by omega)
              show extractFTRAux g1 pre rest
                  (extractFTRAux g1 (extKey pre (tagFieldName name tag)) sfields
                    ft)
                = extractFTRAux g2 pre rest
                  (extractFTRAux g2 (extKey pre (tagFieldName name tag)) sfields
                    ft)
              rw [hinner]
              exact ih g2 pre rest _ (by omega) (by omega)
            | tSlice e2 =>
              cases e2 with
              | tStruct sfields =>
                have hs : gtsize (GoType.tPtr (.tSlice (.tStruct sfields))) =
                    3 + gfsize sfields := by
                  simp only [gtsize]
                  omega
                rw [hs] at h1 h2
                have hinner := ih g2 (extKey pre (tagFieldName name tag)) sfields
                  ft (by omega) (by omega)
                show extractFTRAux g1 pre rest
                    (extractFTRAux g1 (extKey pre (tagFieldName name tag)) sfields
                      ft)
                  = extractFTRAux g2 pre rest
                    (extractFTRAux g2 (extKey pre (tagFieldName name tag)) sfields
                      ft)
                rw [hinner]
                exact ih g2 pre rest _ (by omega) (by omega)
              | _ =>
                exact ih g2 pre rest _ (by omega) (by omega)
            | _ =>
              exact ih g2 pre rest _ (by omega) (by omega)
          | _ =>
            exact ih g2 pre rest _ (by omega) (by omega)

end GoConfig

namespace GoConfig

/-- C7 (confirmed): shape extraction maps a slice-of-records field by
recursing into the element record type with the same dotted prefix (no
index segment), and reconstruction retries a failed exact lookup with all
integer segments stripped, so one shape entry serves every element index:
`servers.<i>.port` resolves through the entry at `servers.port` for every
index `i` (indices being Go ints, i.e. below `2^63`). -/
theorem slice_shape_entry_matches_all_indices :
    (∀ (pre name tag : String) (sfields : List (String × String × GoType))
       (acc : List (String × GoType)), ¬(tag = "" ∨ tag = "-") →
      extractFieldTypesRecursive pre
          [(name, tag, .tSlice (.tStruct sfields))] acc =
        extractFieldTypesRecursive (extKey pre (tagFieldName name tag)) sfields
          acc) ∧
    extractFieldTypesRecursive ""
        [("Servers", "servers", .tSlice (.tStruct [("Port", "port", .tInt)]))]
        [] = [("servers.port", .tInt)] ∧
    (∀ (i : Nat) (v : String), (i : Int) ≤ 2 ^ 63 - 1 →
      convertValueByTargetType ("servers." ++ natToDec i ++ ".port") v
          [("servers.port", .tInt)] =
        (match goAtoi v with
         | some nv => JSON.i nv
         | none => JSON.s v)) := by
  refine ⟨?_, rfl, ?_⟩
  · intro pre name tag sfields acc htag
    unfold extractFieldTypesRecursive
    rw [show gfsize [(name, tag, GoType.tSlice (.tStruct sfields))] =
        (3 + gfsize sfields) + 1 from by simp only [gfsize, gtsize]; omega]
    simp only [extractFTRAux]
    rw [if_neg htag]
    rw [extractFTRAux_nil]
    show extractFTRAux (3 + gfsize sfields) (extKey pre (tagFieldName name tag))
        sfields acc = _
    exact extractFTRAux_congr _ _ _ _ _ (by omega) (le_refl _)
  · intro i v hi
    have hkey : "servers." ++ natToDec i ++ ".port" =
        joinDot ["servers", natToDec i, "port"] := by
      show _ = List.foldl (fun a s => a ++ "." ++ s) "servers"
        [natToDec i, "port"]
      simp only [List.foldl_cons, List.foldl_nil]
      rw [show ("servers." : String) = "servers" ++ "." from by decide,
        show (".port" : String) = "." ++ "port" from by decide]
      simp [String.append_assoc]
    have hdf : ∀ s ∈ ["servers", natToDec i, "port"],
        s.data.contains '.' = false := by
      intro s hs
      rcases List.mem_cons.mp hs with rfl | hs
      · decide
      rcases List.mem_cons.mp hs with rfl | hs
      · exact natToDec_no_dot i
      rcases List.mem_cons.mp hs with rfl | hs
      · decide
      · simp at hs
    have hlen : ("servers." ++ natToDec i ++ ".port").length ≥ 14 := by
      rw [String.length_append, String.length_append]
      have h1 : (natToDec i).length ≥ 1 := by
        have := natToDecCore_ne_nil i
        have : (natToDecCore i).length ≥ 1 :=
          Nat.one_le_iff_ne_zero.mpr (fun h => this (List.length_eq_zero.mp h))
        exact this
      have h2 : ("servers." : String).length = 8 := by decide
      have h3 : (".port" : String).length = 5 := by decide
      omega
    have hne : ¬("servers.port" = "servers." ++ natToDec i ++ ".port") := by
      intro he
      have := congrArg String.length he
      rw [show ("servers.port" : String).length = 12 from by decide] at this
      omega
    have h1 : lookupL [("servers.port", GoType.tInt)]
        ("servers." ++ natToDec i ++ ".port") = none := by
      simp only [lookupL]
      rw [if_neg hne]
    have h2 : removeArrayIndex ("servers." ++ natToDec i ++ ".port") =
        "servers.port" := by
      unfold removeArrayIndex
      rw [hkey, splitDot_joinDot (by simp) hdf]
      simp only [List.length_cons, List.length_nil]
      rw [if_neg (by omega)]
      have hfil : List.filter (fun p => (goAtoi p).isNone)
          ["servers", natToDec i, "port"] = ["servers", "port"] := by
        rw [List.filter_cons_of_pos (by decide),
          List.filter_cons_of_neg (by simp [goAtoi_natToDec hi]),
          List.filter_cons_of_pos (by decide), List.filter_nil]
      rw [hfil]
      decide
    unfold convertValueByTargetType
    rw [h1, h2]
    rfl

/-- Witness for `slice_shape_entry_matches_all_indices`: the slice rule at a
concrete field, and index resolution at indices 0 and 1. -/
theorem slice_shape_entry_matches_all_indices_witness :
    extractFieldTypesRecursive "" [("Items", "items",
        .tSlice (.tStruct [("Name", "name", .tString)]))] [] =
      extractFieldTypesRecursive "items" [("Name", "name", .tString)] [] ∧
    convertValueByTargetType ("servers." ++ natToDec 0 ++ ".port") "8080"
        [("servers.port", .tInt)] = .i 8080 ∧
    convertValueByTargetType ("servers." ++ natToDec 1 ++ ".port") "oops"
        [("servers.port", .tInt)] = .s "oops" := by
  refine ⟨?_, ?_, ?_⟩
  · have h := slice_shape_entry_matches_all_indices.1 "" "Items" "items"
      [("Name", "name", .tString)] [] (by decide)
    rw [h]
    rfl
  · have h := slice_shape_entry_matches_all_indices.2.2 0 "8080" (by norm_num)
    rw [h]
    rfl
  · have h := slice_shape_entry_matches_all_indices.2.2 1 "oops" (by norm_num)
    rw [h]
    rfl

end GoConfig

namespace GoConfig

/-! ## Well-formedness: unfolding lemmas -/

theorem wfKey_iff {k : String} : wfKey k = true ↔
    k ≠ "" ∧ k.data.contains '.' = false ∧ goAtoi k = none := by
  simp [wfKey, Option.isNone_iff_eq_none, and_assoc]

theorem wfV_obj_iff {m : List (String × JSON)} : wfV (.obj m) = true ↔
    m ≠ [] ∧ (m.map Prod.fst).Nodup ∧ wfFields m = true := by
  cases m with
  | nil => simp [wfV, wfFields]
  | cons a t => simp [wfV, and_assoc]

theorem wfV_arr_iff {xs : List JSON} : wfV (.arr xs) = true ↔
    xs ≠ [] ∧ xs.length < 2 ^ 63 ∧
      wfElems (shapeSegs (.arr xs)) xs = true := by
  cases xs with
  | nil => simp [wfV, wfElems]
  | cons a t => simp [wfV, and_assoc]

theorem wfFields_cons_iff {k : String} {v : JSON} {rest : List (String × JSON)} :
    wfFields ((k, v) :: rest) = true ↔
      wfKey k = true ∧ wfV v = true ∧ wfFields rest = true := by
  simp [wfFields, and_assoc]

theorem wfElems_cons_iff {sh : List (List String × SKind)} {x : JSON}
    {rest : List JSON} : wfElems sh (x :: rest) = true ↔
      wfV x = true ∧ notArr x = true ∧ shapeSegs x = sh ∧
        wfElems sh rest = true := by
  simp [wfElems, and_assoc]

theorem wfV_null_false : wfV .null ≠ true := by simp [wfV]

/-! ## The flattener writes exactly the scalar leaves -/

mutual

theorem flattenEntry_eq_leaves : ∀ (path : List String), path ≠ [] →
    (∀ s ∈ path, s ≠ "") → ∀ (v : JSON), wfV v = true →
    flattenEntry (joinDot path) v =
      (leaves v).map (fun pv => (joinDot (path ++ pv.1), goFmt pv.2))
  | _, _, _, .s _, _ => by simp [flattenEntry, leaves]
  | _, _, _, .b _, _ => by simp [flattenEntry, leaves]
  | _, _, _, .i _, _ => by simp [flattenEntry, leaves]
  | _, _, _, .f _, _ => by simp [flattenEntry, leaves]
  | _, _, _, .null, hwf => absurd hwf wfV_null_false
  | path, _, hsegs, .obj m, hwf => by
    rw [show flattenEntry (joinDot path) (.obj m) = flattenJSON (joinDot path) m
      from by simp [flattenEntry]]
    rw [show leaves (.obj m) = leafFields m from by simp [leaves]]
    exact flattenJSON_eq_leafFields path hsegs m (wfV_obj_iff.mp hwf).2.2
  | path, hne, hsegs, .arr xs, hwf => by
    rw [show flattenEntry (joinDot path) (.arr xs) =
        flattenItems (joinDot path) 0 xs from by simp [flattenEntry]]
    rw [show leaves (.arr xs) = leafItems 0 xs from by simp [leaves]]
    exact flattenItems_eq_leafItems path hne hsegs 0 xs _
      (wfV_arr_iff.mp hwf).2.2
termination_by path hne hsegs v hwf => jsize v
decreasing_by all_goals simp_arith [jsize, msize, asize]

theorem flattenJSON_eq_leafFields : ∀ (path : List String),
    (∀ s ∈ path, s ≠ "") → ∀ (m : List (String × JSON)), wfFields m = true →
    flattenJSON (joinDot path) m =
      (leafFields m).map (fun pv => (joinDot (path ++ pv.1), goFmt pv.2))
  | _, _, [], _ => by simp [flattenJSON, leafFields]
  | path, hsegs, (k, v) :: rest, hwf => by
    obtain ⟨hk, hv, hrest⟩ := wfFields_cons_iff.mp hwf
    rw [show flattenJSON (joinDot path) ((k, v) :: rest) =
        flattenEntry (extKey (joinDot path) k) v ++
          flattenJSON (joinDot path) rest from by simp [flattenJSON]]
    rw [show leafFields ((k, v) :: rest) =
        (leaves v).map (fun pv => (k :: pv.1, pv.2)) ++ leafFields rest from by
      simp [leafFields]]
    rw [List.map_append, List.map_map]
    congr 1
    · rw [extKey_joinDot k hsegs]
      rw [flattenEntry_eq_leaves (path ++ [k])
        (by simp)
        (by
          intro s hs
          rcases List.mem_append.mp hs with hs | hs
          · exact hsegs s hs
          · rw [List.mem_singleton.mp hs]
            exact (wfKey_iff.mp hk).1)
        v hv]
      apply List.map_congr_left
      intro pv _
      simp [Function.comp, List.append_assoc]
    · exact flattenJSON_eq_leafFields path hsegs rest hrest
termination_by path hsegs m hwf => msize m
decreasing_by all_goals simp_arith [jsize, msize, asize]

theorem flattenItems_eq_leafItems : ∀ (path : List String), path ≠ [] →
    (∀ s ∈ path, s ≠ "") → ∀ (i : Nat) (xs : List JSON)
    (sh : List (List String × SKind)), wfElems sh xs = true →
    flattenItems (joinDot path) i xs =
      (leafItems i xs).map (fun pv => (joinDot (path ++ pv.1), goFmt pv.2))
  | _, _, _, _, [], _, _ => by simp [flattenItems, leafItems]
  | _, _, _, _, .arr ys :: rest, sh, hwf => by
    obtain ⟨hx, hnarr, hsh, hrest⟩ := wfElems_cons_iff.mp hwf
    simp [notArr] at hnarr
  | _, _, _, _, .null :: rest, sh, hwf => by
    obtain ⟨hx, hnarr, hsh, hrest⟩ := wfElems_cons_iff.mp hwf
    exact absurd hx wfV_null_false
  | path, hne, hsegs, i, .obj m :: rest, sh, hwf => by
    obtain ⟨hx, hnarr, hsh, hrest⟩ := wfElems_cons_iff.mp hwf
    obtain ⟨p0, pt, rfl⟩ : ∃ p0 pt, path = p0 :: pt := by
      cases path with
      | nil => exact absurd rfl hne
      | cons p0 pt => exact ⟨p0, pt, rfl⟩
    have hkey : joinDot (p0 :: pt) ++ "." ++ natToDec i =
        joinDot ((p0 :: pt) ++ [natToDec i]) :=
      (joinDot_append_singleton p0 pt (natToDec i)).symm
    have hsegs' : ∀ s ∈ (p0 :: pt) ++ [natToDec i], s ≠ "" := by
      intro s hs
      rcases List.mem_append.mp hs with hs | hs
      · exact hsegs s hs
      · rw [List.mem_singleton.mp hs]
        exact natToDec_ne_empty i
    have hrec := flattenItems_eq_leafItems (p0 :: pt) hne hsegs (i + 1) rest sh
      hrest
    rw [show leafItems i (JSON.obj m :: rest) =
        (leaves (.obj m)).map (fun pv => (natToDec i :: pv.1, pv.2)) ++
          leafItems (i + 1) rest from by simp [leafItems]]
    rw [List.map_append, List.map_map]
    rw [show flattenItems (joinDot (p0 :: pt)) i (.obj m :: rest) =
        flattenJSON (joinDot (p0 :: pt) ++ "." ++ natToDec i) m ++
          flattenItems (joinDot (p0 :: pt)) (i + 1) rest from by
      simp [flattenItems]]
    rw [hkey, flattenJSON_eq_leafFields ((p0 :: pt) ++ [natToDec i]) hsegs' m
      (wfV_obj_iff.mp hx).2.2, hrec]
    rw [show leaves (.obj m) = leafFields m from by simp [leaves]]
    congr 1
    apply List.map_congr_left
    intro pv _
    simp [Function.comp, List.append_assoc]
  | path, hne, hsegs, i, JSON.s str :: rest, sh, hwf => by
    obtain ⟨hx, hnarr, hsh, hrest⟩ := wfElems_cons_iff.mp hwf
    obtain ⟨p0, pt, rfl⟩ : ∃ p0 pt, path = p0 :: pt := by
      cases path with
      | nil => exact absurd rfl hne
      | cons p0 pt => exact ⟨p0, pt, rfl⟩
    have hkey : joinDot (p0 :: pt) ++ "." ++ natToDec i =
        joinDot ((p0 :: pt) ++ [natToDec i]) :=
      (joinDot_append_singleton p0 pt (natToDec i)).symm
    have hrec := flattenItems_eq_leafItems (p0 :: pt) hne hsegs (i + 1) rest sh
      hrest
    rw [show leafItems i (JSON.s str :: rest) =
        (leaves (JSON.s str)).map (fun pv => (natToDec i :: pv.1, pv.2)) ++
          leafItems (i + 1) rest from by simp [leafItems]]
    rw [List.map_append, List.map_map]
    rw [show flattenItems (joinDot (p0 :: pt)) i (JSON.s str :: rest) =
        (joinDot (p0 :: pt) ++ "." ++ natToDec i, goFmt (JSON.s str)) ::
          flattenItems (joinDot (p0 :: pt)) (i + 1) rest from by
      simp [flattenItems]]
    rw [show leaves (JSON.s str) = [([], (JSON.s str))] from by simp [leaves], hkey, hrec]
    simp [Function.comp]
  | path, hne, hsegs, i, JSON.b bv :: rest, sh, hwf => by
    obtain ⟨hx, hnarr, hsh, hrest⟩ := wfElems_cons_iff.mp hwf
    obtain ⟨p0, pt, rfl⟩ : ∃ p0 pt, path = p0 :: pt := by
      cases path with
      | nil => exact absurd rfl hne
      | cons p0 pt => exact ⟨p0, pt, rfl⟩
    have hkey : joinDot (p0 :: pt) ++ "." ++ natToDec i =
        joinDot ((p0 :: pt) ++ [natToDec i]) :=
      (joinDot_append_singleton p0 pt (natToDec i)).symm
    have hrec := flattenItems_eq_leafItems (p0 :: pt) hne hsegs (i + 1) rest sh
      hrest
    rw [show leafItems i (JSON.b bv :: rest) =
        (leaves (JSON.b bv)).map (fun pv => (natToDec i :: pv.1, pv.2)) ++
          leafItems (i + 1) rest from by simp [leafItems]]
    rw [List.map_append, List.map_map]
    rw [show flattenItems (joinDot (p0 :: pt)) i (JSON.b bv :: rest) =
        (joinDot (p0 :: pt) ++ "." ++ natToDec i, goFmt (JSON.b bv)) ::
          flattenItems (joinDot (p0 :: pt)) (i + 1) rest from by
      simp [flattenItems]]
    rw [show leaves (JSON.b bv) = [([], (JSON.b bv))] from by simp [leaves], hkey, hrec]
    simp [Function.comp]
  | path, hne, hsegs, i, JSON.i n :: rest, sh, hwf => by
    obtain ⟨hx, hnarr, hsh, hrest⟩ := wfElems_cons_iff.mp hwf
    obtain ⟨p0, pt, rfl⟩ : ∃ p0 pt, path = p0 :: pt := by
      cases path with
      | nil => exact absurd rfl hne
      | cons p0 pt => exact ⟨p0, pt, rfl⟩
    have hkey : joinDot (p0 :: pt) ++ "." ++ natToDec i =
        joinDot ((p0 :: pt) ++ [natToDec i]) :=
      (joinDot_append_singleton p0 pt (natToDec i)).symm
    have hrec := flattenItems_eq_leafItems (p0 :: pt) hne hsegs (i + 1) rest sh
      hrest
    rw [show leafItems i (JSON.i n :: rest) =
        (leaves (JSON.i n)).map (fun pv => (natToDec i :: pv.1, pv.2)) ++
          leafItems (i + 1) rest from by simp [leafItems]]
    rw [List.map_append, List.map_map]
    rw [show flattenItems (joinDot (p0 :: pt)) i (JSON.i n :: rest) =
        (joinDot (p0 :: pt) ++ "." ++ natToDec i, goFmt (JSON.i n)) ::
          flattenItems (joinDot (p0 :: pt)) (i + 1) rest from by
      simp [flattenItems]]
    rw [show leaves (JSON.i n) = [([], (JSON.i n))] from by simp [leaves], hkey, hrec]
    simp [Function.comp]
  | path, hne, hsegs, i, JSON.f fv :: rest, sh, hwf => by
    obtain ⟨hx, hnarr, hsh, hrest⟩ := wfElems_cons_iff.mp hwf
    obtain ⟨p0, pt, rfl⟩ : ∃ p0 pt, path = p0 :: pt := by
      cases path with
      | nil => exact absurd rfl hne
      | cons p0 pt => exact ⟨p0, pt, rfl⟩
    have hkey : joinDot (p0 :: pt) ++ "." ++ natToDec i =
        joinDot ((p0 :: pt) ++ [natToDec i]) :=
      (joinDot_append_singleton p0 pt (natToDec i)).symm
    have hrec := flattenItems_eq_leafItems (p0 :: pt) hne hsegs (i + 1) rest sh
      hrest
    rw [show leafItems i (JSON.f fv :: rest) =
        (leaves (JSON.f fv)).map (fun pv => (natToDec i :: pv.1, pv.2)) ++
          leafItems (i + 1) rest from by simp [leafItems]]
    rw [List.map_append, List.map_map]
    rw [show flattenItems (joinDot (p0 :: pt)) i (JSON.f fv :: rest) =
        (joinDot (p0 :: pt) ++ "." ++ natToDec i, goFmt (JSON.f fv)) ::
          flattenItems (joinDot (p0 :: pt)) (i + 1) rest from by
      simp [flattenItems]]
    rw [show leaves (JSON.f fv) = [([], (JSON.f fv))] from by simp [leaves], hkey, hrec]
    simp [Function.comp]
termination_by path hne hsegs i xs sh hwf => asize xs
decreasing_by all_goals simp_arith [jsize, msize, asize]

end

end GoConfig

namespace GoConfig

/-! ## Properties of leaves and shapes of well-formed documents -/

theorem wfKey_wfSeg {k : String} (h : wfKey k = true) : wfSeg k = true := by
  obtain ⟨h1, h2, h3⟩ := wfKey_iff.mp h
  simp [wfSeg, h1, h2]
  exact (contains_false_iff _ _).mp h2

theorem wfSeg_natToDec (i : Nat) : wfSeg (natToDec i) = true := by
  simp [wfSeg, natToDec_ne_empty i, natToDec_no_dot i]
  exact (contains_false_iff _ _).mp (natToDec_no_dot i)

theorem stripIdx_cons_keep {s : String} (h : goAtoi s = none) (p : List String) :
    stripIdx (s :: p) = s :: stripIdx p := by
  simp [stripIdx, List.filter_cons, h]

theorem stripIdx_cons_drop {s : String} {n : Int} (h : goAtoi s = some n)
    (p : List String) : stripIdx (s :: p) = stripIdx p := by
  simp [stripIdx, List.filter_cons, h]

mutual

theorem leaves_spec : ∀ (v : JSON), wfV v = true → ∀ pv ∈ leaves v,
    (∀ s ∈ pv.1, wfSeg s = true) ∧ isScalar pv.2 = true ∧ wfV pv.2 = true ∧
      (stripIdx pv.1, kindOf pv.2) ∈ shapeSegs v
  | .s str, hwf => by
    intro pv hpv
    rw [show leaves (.s str) = [([], .s str)] from by simp [leaves]] at hpv
    rw [List.mem_singleton.mp hpv]
    simp [isScalar, hwf, stripIdx, shapeSegs, kindOf]
  | .b bv, hwf => by
    intro pv hpv
    rw [show leaves (.b bv) = [([], .b bv)] from by simp [leaves]] at hpv
    rw [List.mem_singleton.mp hpv]
    simp [isScalar, hwf, stripIdx, shapeSegs, kindOf]
  | .i n, hwf => by
    intro pv hpv
    rw [show leaves (.i n) = [([], .i n)] from by simp [leaves]] at hpv
    rw [List.mem_singleton.mp hpv]
    simp [isScalar, hwf, stripIdx, shapeSegs, kindOf]
  | .f fv, hwf => by
    intro pv hpv
    rw [show leaves (.f fv) = [([], .f fv)] from by simp [leaves]] at hpv
    rw [List.mem_singleton.mp hpv]
    simp [isScalar, hwf, stripIdx, shapeSegs, kindOf]
  | .null, hwf => absurd hwf wfV_null_false
  | .obj m, hwf => by
    intro pv hpv
    rw [show leaves (.obj m) = leafFields m from by simp [leaves]] at hpv
    obtain ⟨-, hsegs, hsc, hwfv, hmem⟩ :=
      leafFields_spec m (wfV_obj_iff.mp hwf).2.2 pv hpv
    refine ⟨hsegs, hsc, hwfv, ?_⟩
    rw [show shapeSegs (.obj m) = shapeFields m from by simp [shapeSegs]]
    exact hmem
  | .arr xs, hwf => by
    intro pv hpv
    rw [show leaves (.arr xs) = leafItems 0 xs from by simp [leaves]] at hpv
    obtain ⟨hne, hlen, hwfe⟩ := wfV_arr_iff.mp hwf
    obtain ⟨-, hsegs, hsc, hwfv, hmem⟩ :=
      leafItems_spec 0 xs (shapeSegs (.arr xs)) hwfe (by omega) pv hpv
    exact ⟨hsegs, hsc, hwfv, hmem⟩
termination_by v hwf => jsize v
decreasing_by all_goals simp_arith [jsize, msize, asize]

theorem leafFields_spec : ∀ (m : List (String × JSON)), wfFields m = true →
    ∀ pv ∈ leafFields m,
    (∃ k0 p', pv.1 = k0 :: p' ∧ wfKey k0 = true) ∧
      (∀ s ∈ pv.1, wfSeg s = true) ∧ isScalar pv.2 = true ∧ wfV pv.2 = true ∧
      (stripIdx pv.1, kindOf pv.2) ∈ shapeFields m
  | [], _ => by simp [leafFields]
  | (k, v) :: rest, hwf => by
    obtain ⟨hk, hv, hrest⟩ := wfFields_cons_iff.mp hwf
    intro pv hpv
    rw [show leafFields ((k, v) :: rest) =
        (leaves v).map (fun pv => (k :: pv.1, pv.2)) ++ leafFields rest from by
      simp [leafFields]] at hpv
    rw [show shapeFields ((k, v) :: rest) =
        (shapeSegs v).map (fun qk => (k :: qk.1, qk.2)) ++ shapeFields rest
      from by simp [shapeFields]]
    rcases List.mem_append.mp hpv with hpv | hpv
    · obtain ⟨⟨p', sc⟩, hmem, rfl⟩ := List.mem_map.mp hpv
      obtain ⟨hsegs, hsc, hwfv, hshape⟩ := leaves_spec v hv (p', sc) hmem
      refine ⟨⟨k, p', rfl, hk⟩, ?_, hsc, hwfv, ?_⟩
      · intro s hs
        rcases List.mem_cons.mp hs with rfl | hs
        · exact wfKey_wfSeg hk
        · exact hsegs s hs
      · rw [show stripIdx (k :: p') = k :: stripIdx p' from
          stripIdx_cons_keep (wfKey_iff.mp hk).2.2 p']
        exact List.mem_append.mpr (Or.inl (List.mem_map.mpr
          ⟨(stripIdx p', kindOf sc), hshape, rfl⟩))
    · obtain ⟨hhead, hsegs, hsc, hwfv, hshape⟩ := leafFields_spec rest hrest pv hpv
      exact ⟨hhead, hsegs, hsc, hwfv, List.mem_append.mpr (Or.inr hshape)⟩
termination_by m hwf => msize m
decreasing_by all_goals simp_arith [jsize, msize, asize]

theorem leafItems_spec : ∀ (i : Nat) (xs : List JSON)
    (sh : List (List String × SKind)), wfElems sh xs = true →
    i + xs.length ≤ 2 ^ 63 → ∀ pv ∈ leafItems i xs,
    pv.1 ≠ [] ∧ (∀ s ∈ pv.1, wfSeg s = true) ∧ isScalar pv.2 = true ∧
      wfV pv.2 = true ∧ (stripIdx pv.1, kindOf pv.2) ∈ sh
  | _, [], _, _, _ => by simp [leafItems]
  | i, x :: rest, sh, hwf, hlen => by
    obtain ⟨hx, hnarr, hsh, hrest⟩ := wfElems_cons_iff.mp hwf
    intro pv hpv
    rw [show leafItems i (x :: rest) =
        (leaves x).map (fun pv => (natToDec i :: pv.1, pv.2)) ++
          leafItems (i + 1) rest from by simp [leafItems]] at hpv
    rcases List.mem_append.mp hpv with hpv | hpv
    · obtain ⟨⟨p', sc⟩, hmem, rfl⟩ := List.mem_map.mp hpv
      obtain ⟨hsegs, hsc, hwfv, hshape⟩ := leaves_spec x hx (p', sc) hmem
      have hidx : goAtoi (natToDec i) = some (i : Int) :=
        goAtoi_natToDec (by simp at hlen ⊢; omega)
      refine ⟨by simp, ?_, hsc, hwfv, ?_⟩
      · intro s hs
        rcases List.mem_cons.mp hs with rfl | hs
        · exact wfSeg_natToDec i
        · exact hsegs s hs
      · rw [show stripIdx (natToDec i :: p') = stripIdx p' from
          stripIdx_cons_drop hidx p']
        rw [← hsh]
        exact hshape
    · exact leafItems_spec (i + 1) rest sh hrest (by simp at hlen ⊢; omega) pv hpv
termination_by i xs sh hwf hlen => asize xs
decreasing_by all_goals simp_arith [jsize, msize, asize]

end

end GoConfig

namespace GoConfig

/-! ## Shapes of well-formed documents: segments, key uniqueness, lookup -/

theorem lookupL_of_mem_nodup {α : Type} {L : List (String × α)} {k : String}
    {v : α} (hnd : (L.map Prod.fst).Nodup) (hmem : (k, v) ∈ L) :
    lookupL L k = some v := by
  induction L with
  | nil => simp at hmem
  | cons kv rest ih =>
    obtain ⟨k0, v0⟩ := kv
    simp only [List.map_cons, List.nodup_cons] at hnd
    rcases List.mem_cons.mp hmem with h | h
    · rw [Prod.mk.injEq] at h
      obtain ⟨rfl, rfl⟩ := h
      simp [lookupL]
    · have hk : k0 ≠ k := by
        rintro rfl
        exact hnd.1 (List.mem_map.mpr ⟨(k0, v), h, rfl⟩)
      simp only [lookupL, if_neg hk]
      exact ih hnd.2 h

mutual

theorem shapeSegs_spec : ∀ (v : JSON), wfV v = true → ∀ qk ∈ shapeSegs v,
    ∀ s ∈ qk.1, wfKey s = true
  | .s str, _ => by
    intro qk hqk
    rw [show shapeSegs (.s str) = [([], .str)] from by simp [shapeSegs, kindOf]]
      at hqk
    rw [List.mem_singleton.mp hqk]
    simp
  | .b bv, _ => by
    intro qk hqk
    rw [show shapeSegs (.b bv) = [([], .bool)] from by simp [shapeSegs, kindOf]]
      at hqk
    rw [List.mem_singleton.mp hqk]
    simp
  | .i n, _ => by
    intro qk hqk
    rw [show shapeSegs (.i n) = [([], .int)] from by simp [shapeSegs, kindOf]]
      at hqk
    rw [List.mem_singleton.mp hqk]
    simp
  | .f fv, _ => by
    intro qk hqk
    rw [show shapeSegs (.f fv) = [([], .float)] from by
      simp [shapeSegs, kindOf]] at hqk
    rw [List.mem_singleton.mp hqk]
    simp
  | .null, hwf => absurd hwf wfV_null_false
  | .obj m, hwf => by
    intro qk hqk
    rw [show shapeSegs (.obj m) = shapeFields m from by simp [shapeSegs]] at hqk
    exact fun s hs =>
      (shapeFields_spec m (wfV_obj_iff.mp hwf).2.2 qk hqk).2 s hs
  | .arr (x :: rest), hwf => by
    intro qk hqk
    rw [show shapeSegs (.arr (x :: rest)) = shapeSegs x from by
      simp [shapeSegs]] at hqk
    have hx := (wfElems_cons_iff.mp (wfV_arr_iff.mp hwf).2.2).1
    exact shapeSegs_spec x hx qk hqk
  | .arr [], hwf => by
    intro qk hqk
    rw [show shapeSegs (.arr []) = [] from by simp [shapeSegs]] at hqk
    simp at hqk
termination_by v hwf => jsize v
decreasing_by all_goals simp_arith [jsize, msize, asize]

theorem shapeFields_spec : ∀ (m : List (String × JSON)), wfFields m = true →
    ∀ qk ∈ shapeFields m,
    (∃ k0 q', qk.1 = k0 :: q' ∧ k0 ∈ m.map Prod.fst) ∧
      ∀ s ∈ qk.1, wfKey s = true
  | [], _ => by simp [shapeFields]
  | (k, v) :: rest, hwf => by
    obtain ⟨hk, hv, hrest⟩ := wfFields_cons_iff.mp hwf
    intro qk hqk
    rw [show shapeFields ((k, v) :: rest) =
        (shapeSegs v).map (fun qk => (k :: qk.1, qk.2)) ++ shapeFields rest
      from by simp [shapeFields]] at hqk
    rcases List.mem_append.mp hqk with hqk | hqk
    · obtain ⟨⟨q', κ⟩, hmem, rfl⟩ := List.mem_map.mp hqk
      refine ⟨⟨k, q', rfl, by simp⟩, ?_⟩
      intro s hs
      rcases List.mem_cons.mp hs with rfl | hs
      · exact hk
      · exact shapeSegs_spec v hv (q', κ) hmem s hs
    · obtain ⟨⟨k0, q', hq, hk0⟩, hsegs⟩ := shapeFields_spec rest hrest qk hqk
      exact ⟨⟨k0, q', hq, by simp [hk0]⟩, hsegs⟩
termination_by m hwf => msize m
decreasing_by all_goals simp_arith [jsize, msize, asize]

end

mutual

theorem shapeSegs_keys_nodup : ∀ (v : JSON), wfV v = true →
    ((shapeSegs v).map Prod.fst).Nodup
  | .s str, _ => by
    rw [show shapeSegs (.s str) = [([], .str)] from by simp [shapeSegs, kindOf]]
    simp
  | .b bv, _ => by
    rw [show shapeSegs (.b bv) = [([], .bool)] from by simp [shapeSegs, kindOf]]
    simp
  | .i n, _ => by
    rw [show shapeSegs (.i n) = [([], .int)] from by simp [shapeSegs, kindOf]]
    simp
  | .f fv, _ => by
    rw [show shapeSegs (.f fv) = [([], .float)] from by simp [shapeSegs, kindOf]]
    simp
  | .null, hwf => absurd hwf wfV_null_false
  | .obj m, hwf => by
    rw [show shapeSegs (.obj m) = shapeFields m from by simp [shapeSegs]]
    exact shapeFields_keys_nodup m (wfV_obj_iff.mp hwf).2.2
      (wfV_obj_iff.mp hwf).2.1
  | .arr (x :: rest), hwf => by
    rw [show shapeSegs (.arr (x :: rest)) = shapeSegs x from by simp [shapeSegs]]
    exact shapeSegs_keys_nodup x
      (wfElems_cons_iff.mp (wfV_arr_iff.mp hwf).2.2).1
  | .arr [], hwf => by
    rw [show shapeSegs (.arr []) = [] from by simp [shapeSegs]]
    simp
termination_by v hwf => jsize v
decreasing_by all_goals simp_arith [jsize, msize, asize]

theorem shapeFields_keys_nodup : ∀ (m : List (String × JSON)),
    wfFields m = true → (m.map Prod.fst).Nodup →
    ((shapeFields m).map Prod.fst).Nodup
  | [], _, _ => by simp [shapeFields]
  | (k, v) :: rest, hwf, hnd => by
    obtain ⟨hk, hv, hrest⟩ := wfFields_cons_iff.mp hwf
    simp only [List.map_cons, List.nodup_cons] at hnd
    rw [show shapeFields ((k, v) :: rest) =
        (shapeSegs v).map (fun qk => (k :: qk.1, qk.2)) ++ shapeFields rest
      from by simp [shapeFields]]
    rw [List.map_append, List.map_map]
    rw [List.nodup_append]
    refine ⟨?_, shapeFields_keys_nodup rest hrest hnd.2, ?_⟩
    · have : (Prod.fst ∘ fun qk : List String × SKind => (k :: qk.1, qk.2)) =
          (fun q => k :: q) ∘ Prod.fst := rfl
      rw [this, ← List.map_map]
      exact (shapeSegs_keys_nodup v hv).map
        (fun a b h => List.cons.injEq .. ▸ h |>.2)
    · intro q hq1 hq2
      obtain ⟨⟨q', κ⟩, -, rfl⟩ := List.mem_map.mp hq1
      obtain ⟨qk, hqk, hq⟩ := List.mem_map.mp hq2
      obtain ⟨⟨k0, q0, hqe, hk0⟩, -⟩ := shapeFields_spec rest hrest qk hqk
      rw [hqe] at hq
      simp only [Function.comp] at hq
      have : k = k0 := by
        have := hq.symm
        injection this
      exact hnd.1 (this ▸ hk0)
termination_by m hwf hnd => msize m
decreasing_by all_goals simp_arith [jsize, msize, asize]

end

end GoConfig

namespace GoConfig

/-! ## Resolving a leaf: the shape lookup finds its kind and the coercion
reproduces the original scalar -/

theorem convert_at_kind {sc : JSON} (hsc : isScalar sc = true)
    (hwfv : wfV sc = true) (key : String) (ft : List (String × GoType))
    (hres : (match lookupL ft key with
             | some t => some t
             | none => lookupL ft (removeArrayIndex key)) =
        some ((kindOf sc).toGoType)) :
    convertValueByTargetType key (goFmt sc) ft = sc := by
  unfold convertValueByTargetType
  rw [hres]
  cases sc with
  | s str => simp [kindOf, SKind.toGoType, goFmt]
  | b bv => cases bv <;> simp [kindOf, SKind.toGoType, goFmt, goParseBool]
  | i n =>
    simp only [kindOf, SKind.toGoType, goFmt]
    have hrange : -(2 ^ 63) ≤ n ∧ n < 2 ^ 63 := by
      simp [wfV] at hwfv
      exact hwfv
    rw [goAtoi_intToDec hrange.1 hrange.2]
  | f fv =>
    simp only [kindOf, SKind.toGoType, goFmt]
    rw [if_pos ?_]
    simp [wfV] at hwfv
    exact hwfv
  | null => simp [isScalar] at hsc
  | arr xs => simp [isScalar] at hsc
  | obj m => simp [isScalar] at hsc

theorem shapeOfDoc_keys_nodup {m : List (String × JSON)}
    (hwf : wfFields m = true) (hnd : (m.map Prod.fst).Nodup) :
    ((shapeOfDoc m).map Prod.fst).Nodup := by
  unfold shapeOfDoc
  rw [List.map_map]
  have : (Prod.fst ∘ fun qk : List String × SKind =>
      (joinDot qk.1, qk.2.toGoType)) = (fun qk => joinDot qk.1) := rfl
  rw [this]
  have hspec := shapeFields_spec m hwf
  have hkeys := shapeFields_keys_nodup m hwf hnd
  rw [show (fun qk : List String × SKind => joinDot qk.1) =
      joinDot ∘ Prod.fst from rfl, ← List.map_map]
  apply List.Nodup.map_on ?_ hkeys
  intro q1 hq1 q2 hq2 he
  obtain ⟨qk1, hqk1, rfl⟩ := List.mem_map.mp hq1
  obtain ⟨qk2, hqk2, rfl⟩ := List.mem_map.mp hq2
  obtain ⟨⟨k1, q1t, hqe1, -⟩, hsegs1⟩ := hspec qk1 hqk1
  obtain ⟨⟨k2, q2t, hqe2, -⟩, hsegs2⟩ := hspec qk2 hqk2
  exact joinDot_injective (by rw [hqe1]; simp) (by rw [hqe2]; simp)
    (fun s hs => (wfKey_iff.mp (hsegs1 s hs)).2.1)
    (fun s hs => (wfKey_iff.mp (hsegs2 s hs)).2.1) he

theorem resolve_leaf {m : List (String × JSON)} (hwf : wfFields m = true)
    (hnd : (m.map Prod.fst).Nodup) {p : List String} {sc : JSON}
    (hmem : (p, sc) ∈ leafFields m) :
    convertValueByTargetType (joinDot p) (goFmt sc) (shapeOfDoc m) = sc := by
  obtain ⟨⟨k0, p', hp, hk0⟩, hsegs, hsc, hwfv, hshape⟩ :=
    leafFields_spec m hwf (p, sc) hmem
  dsimp only at hp hsegs hsc hwfv hshape
  have hpne : p ≠ [] := by rw [hp]; simp
  have hpdf : ∀ s ∈ p, s.data.contains '.' = false := by
    intro s hs
    have h := hsegs s hs
    simp only [wfSeg, Bool.and_eq_true, Bool.not_eq_true'] at h
    exact h.2
  have hOnd := shapeOfDoc_keys_nodup hwf hnd
  have hSmem : (joinDot (stripIdx p), (kindOf sc).toGoType) ∈ shapeOfDoc m := by
    unfold shapeOfDoc
    exact List.mem_map.mpr ⟨(stripIdx p, kindOf sc), hshape, rfl⟩
  have hlook2 : lookupL (shapeOfDoc m) (joinDot (stripIdx p)) =
      some ((kindOf sc).toGoType) := lookupL_of_mem_nodup hOnd hSmem
  by_cases hip : stripIdx p = p
  · apply convert_at_kind hsc hwfv
    rw [hip] at hlook2
    rw [hlook2]
  · have hex : ∃ s ∈ p, (goAtoi s).isSome = true := by
      by_contra hno
      push_neg at hno
      apply hip
      unfold stripIdx
      apply List.filter_eq_self.mpr
      intro s hs
      simp only [Option.isNone_iff_eq_none]
      exact Option.not_isSome_iff_eq_none.mp (by simpa using hno s hs)
    obtain ⟨sN, hsN, hsome⟩ := hex
    obtain ⟨nv, hnv⟩ := Option.isSome_iff_exists.mp hsome
    have hlook1 : lookupL (shapeOfDoc m) (joinDot p) = none := by
      rw [lookupL_eq_none_iff]
      intro hmem2
      obtain ⟨a, ha, hfst⟩ := List.mem_map.mp hmem2
      obtain ⟨qk, hqk, rfl⟩ := List.mem_map.mp ha
      obtain ⟨⟨k1, q1, hqe, -⟩, hksegs⟩ := shapeFields_spec m hwf qk hqk
      have hqp : qk.1 = p :=
        joinDot_injective (by rw [hqe]; simp) hpne
          (fun s hs => (wfKey_iff.mp (hksegs s hs)).2.1) hpdf hfst
      have := hksegs sN (hqp ▸ hsN)
      rw [wfKey_iff] at this
      rw [this.2.2] at hnv
      cases hnv
    have hsplit : splitDot (joinDot p) = p := splitDot_joinDot hpne hpdf
    have hlen2 : ¬(p.length ≤ 1) := by
      have hkAtoi := (wfKey_iff.mp hk0).2.2
      have hsN' : sN ∈ p' := by
        rcases List.mem_cons.mp (by rw [← hp]; exact hsN) with rfl | h
        · rw [hkAtoi] at hnv
          cases hnv
        · exact h
      have hp'ne : p' ≠ [] := by
        rintro rfl
        simp at hsN'
      rw [hp]
      simp only [List.length_cons]
      have := List.length_pos.mpr hp'ne
      omega
    have hremove : removeArrayIndex (joinDot p) = joinDot (stripIdx p) := by
      unfold removeArrayIndex
      rw [hsplit, if_neg hlen2]
      rfl
    apply convert_at_kind hsc hwfv
    rw [hlook1]
    show lookupL (shapeOfDoc m) (removeArrayIndex (joinDot p)) = _
    rw [hremove, hlook2]

end GoConfig

namespace GoConfig

/-! ## The nested-insertion phase builds the expected nested map -/

theorem upsert_eq_self_of_lookup {α : Type} {m : List (String × α)} {k : String}
    {v : α} (h : lookupL m k = some v) : upsert m k v = m := by
  induction m with
  | nil => simp [lookupL] at h
  | cons kv rest ih =>
    obtain ⟨k0, v0⟩ := kv
    by_cases h0 : k0 = k
    · subst h0
      simp [lookupL] at h
      simp [upsert, h]
    · simp only [lookupL, if_neg h0] at h
      simp [upsert, h0, ih h]

theorem insertSegs_append (a b : List (List String × JSON))
    (acc : List (String × JSON)) :
    insertSegs (a ++ b) acc = insertSegs b (insertSegs a acc) := by
  simp [insertSegs, List.foldl_append]

theorem insertSegs_map_cons (k : String) :
    ∀ (ws : List (List String × JSON)) (acc : List (String × JSON))
    (X : List (String × JSON)), (∀ pv ∈ ws, pv.1 ≠ []) →
    lookupL acc k = some (.obj X) →
    insertSegs (ws.map (fun pv => (k :: pv.1, pv.2))) acc =
      upsert acc k (.obj (insertSegs ws X)) := by
  intro ws
  induction ws with
  | nil =>
    intro acc X _ hl
    simp only [List.map_nil, insertSegs, List.foldl_nil]
    exact (upsert_eq_self_of_lookup hl).symm
  | cons pv rest ih =>
    intro acc X hpaths hl
    obtain ⟨p, v⟩ := pv
    have hpne : p ≠ [] := hpaths (p, v) (by simp)
    obtain ⟨q, pt, rfl⟩ : ∃ q pt, p = q :: pt := by
      cases p with
      | nil => exact absurd rfl hpne
      | cons q pt => exact ⟨q, pt, rfl⟩
    rw [show ((q :: pt, v) :: rest).map (fun pv => (k :: pv.1, pv.2)) =
        (k :: q :: pt, v) :: rest.map (fun pv => (k :: pv.1, pv.2)) from by simp]
    rw [show insertSegs ((k :: q :: pt, v) :: rest.map
          (fun pv => (k :: pv.1, pv.2))) acc =
        insertSegs (rest.map (fun pv => (k :: pv.1, pv.2)))
          (setPath (k :: q :: pt) acc v) from by simp [insertSegs]]
    rw [show setPath (k :: q :: pt) acc v =
        upsert acc k (.obj (setPath (q :: pt) X v)) from by
      simp only [setPath, hl]]
    rw [ih (upsert acc k (.obj (setPath (q :: pt) X v)))
      (setPath (q :: pt) X v)
      (fun pv hpv => hpaths pv (by simp [hpv]))
      (lookupL_upsert_self acc k _)]
    rw [upsert_upsert_same]
    rw [show insertSegs ((q :: pt, v) :: rest) X =
        insertSegs rest (setPath (q :: pt) X v) from by simp [insertSegs]]

theorem insertSegs_map_cons_fresh (k : String)
    (ws : List (List String × JSON)) (acc : List (String × JSON))
    (hne : ws ≠ []) (hpaths : ∀ pv ∈ ws, pv.1 ≠ [])
    (hl : lookupL acc k = none) :
    insertSegs (ws.map (fun pv => (k :: pv.1, pv.2))) acc =
      upsert acc k (.obj (insertSegs ws [])) := by
  cases ws with
  | nil => exact absurd rfl hne
  | cons pv rest =>
    obtain ⟨p, v⟩ := pv
    have hpne : p ≠ [] := hpaths (p, v) (by simp)
    obtain ⟨q, pt, rfl⟩ : ∃ q pt, p = q :: pt := by
      cases p with
      | nil => exact absurd rfl hpne
      | cons q pt => exact ⟨q, pt, rfl⟩
    rw [show ((q :: pt, v) :: rest).map (fun pv => (k :: pv.1, pv.2)) =
        (k :: q :: pt, v) :: rest.map (fun pv => (k :: pv.1, pv.2)) from by simp]
    rw [show insertSegs ((k :: q :: pt, v) :: rest.map
          (fun pv => (k :: pv.1, pv.2))) acc =
        insertSegs (rest.map (fun pv => (k :: pv.1, pv.2)))
          (setPath (k :: q :: pt) acc v) from by simp [insertSegs]]
    rw [show setPath (k :: q :: pt) acc v =
        upsert acc k (.obj (setPath (q :: pt) [] v)) from by
      simp only [setPath, hl]]
    rw [insertSegs_map_cons k rest _ (setPath (q :: pt) [] v)
      (fun pv hpv => hpaths pv (by simp [hpv]))
      (lookupL_upsert_self acc k _)]
    rw [upsert_upsert_same]
    rw [show insertSegs ((q :: pt, v) :: rest) [] =
        insertSegs rest (setPath (q :: pt) [] v) from by simp [insertSegs]]

end GoConfig

namespace GoConfig

theorem lookupL_append_none {α : Type} {a b : List (String × α)} {k : String}
    (h1 : lookupL a k = none) (h2 : lookupL b k = none) :
    lookupL (a ++ b) k = none := by
  rw [lookupL_append, h1, h2]

theorem lookupL_singleton_ne {α : Type} {k0 k : String} (h : k0 ≠ k) (X : α) :
    lookupL [(k0, X)] k = none := by
  simp [lookupL, h]

/-! ## Non-emptiness of leaf lists -/

mutual

theorem leaves_ne_nil : ∀ (v : JSON), wfV v = true → leaves v ≠ []
  | .s str, _ => by simp [leaves]
  | .b bv, _ => by simp [leaves]
  | .i n, _ => by simp [leaves]
  | .f fv, _ => by simp [leaves]
  | .null, hwf => absurd hwf wfV_null_false
  | .obj m, hwf => by
    rw [show leaves (.obj m) = leafFields m from by simp [leaves]]
    exact leafFields_ne_nil m (wfV_obj_iff.mp hwf).2.2 (wfV_obj_iff.mp hwf).1
  | .arr xs, hwf => by
    rw [show leaves (.arr xs) = leafItems 0 xs from by simp [leaves]]
    exact leafItems_ne_nil 0 xs _ (wfV_arr_iff.mp hwf).2.2
      (wfV_arr_iff.mp hwf).1
termination_by v hwf => jsize v
decreasing_by all_goals simp_arith [jsize, msize, asize]

theorem leafFields_ne_nil : ∀ (m : List (String × JSON)),
    wfFields m = true → m ≠ [] → leafFields m ≠ []
  | [], _, hne => absurd rfl hne
  | (k, v) :: rest, hwf, _ => by
    obtain ⟨hk, hv, hrest⟩ := wfFields_cons_iff.mp hwf
    rw [show leafFields ((k, v) :: rest) =
        (leaves v).map (fun pv => (k :: pv.1, pv.2)) ++ leafFields rest from by
      simp [leafFields]]
    simp only [ne_eq, List.append_eq_nil, List.map_eq_nil_iff, not_and]
    intro hl
    exact absurd hl (leaves_ne_nil v hv)
termination_by m hwf hne => msize m
decreasing_by all_goals simp_arith [jsize, msize, asize]

theorem leafItems_ne_nil : ∀ (i : Nat) (xs : List JSON)
    (sh : List (List String × SKind)), wfElems sh xs = true → xs ≠ [] →
    leafItems i xs ≠ []
  | _, [], _, _, hne => absurd rfl hne
  | i, x :: rest, sh, hwf, _ => by
    obtain ⟨hx, hnarr, hsh, hrest⟩ := wfElems_cons_iff.mp hwf
    rw [show leafItems i (x :: rest) =
        (leaves x).map (fun pv => (natToDec i :: pv.1, pv.2)) ++
          leafItems (i + 1) rest from by simp [leafItems]]
    simp only [ne_eq, List.append_eq_nil, List.map_eq_nil_iff, not_and]
    intro hl
    exact absurd hl (leaves_ne_nil x hx)
termination_by i xs sh hwf hne => asize xs
decreasing_by all_goals simp_arith [jsize, msize, asize]

end

theorem leaves_paths_ne_nil {v : JSON} (hwf : wfV v = true)
    (hns : isScalar v = false) : ∀ pv ∈ leaves v, pv.1 ≠ [] := by
  intro pv hpv
  cases v with
  | s str => simp [isScalar] at hns
  | b bv => simp [isScalar] at hns
  | i n => simp [isScalar] at hns
  | f fv => simp [isScalar] at hns
  | null => exact absurd hwf wfV_null_false
  | obj m =>
    rw [show leaves (.obj m) = leafFields m from by simp [leaves]] at hpv
    obtain ⟨⟨k0, p', hp, -⟩, -⟩ :=
      leafFields_spec m (wfV_obj_iff.mp hwf).2.2 pv hpv
    rw [hp]
    simp
  | arr xs =>
    rw [show leaves (.arr xs) = leafItems 0 xs from by simp [leaves]] at hpv
    obtain ⟨hne, hlen, hwfe⟩ := wfV_arr_iff.mp hwf
    exact (leafItems_spec 0 xs _ hwfe (by omega) pv hpv).1

/-! ## The insertion fold builds `toNested` -/

mutual

theorem insert_leafFields : ∀ (m : List (String × JSON)), wfFields m = true →
    (m.map Prod.fst).Nodup → ∀ (acc : List (String × JSON)),
    (∀ k ∈ m.map Prod.fst, lookupL acc k = none) →
    insertSegs (leafFields m) acc = acc ++ nestedFields m
  | [], _, _, acc, _ => by simp [leafFields, nestedFields, insertSegs]
  | (k, JSON.s str) :: rest, hwf, hnd, acc, hfresh => by
    obtain ⟨hk, hv, hrest⟩ := wfFields_cons_iff.mp hwf
    simp only [List.map_cons, List.nodup_cons] at hnd
    rw [show leafFields ((k, JSON.s str) :: rest) =
        (leaves (JSON.s str)).map (fun pv => (k :: pv.1, pv.2)) ++ leafFields rest from by
      simp [leafFields]]
    rw [insertSegs_append]
    rw [show insertSegs ((leaves (JSON.s str)).map fun pv => (k :: pv.1, pv.2)) acc =
        upsert acc k (JSON.s str) from by simp [leaves, insertSegs, setPath]]
    rw [upsert_fresh (hfresh k (by simp)) (JSON.s str)]
    rw [insert_leafFields rest hrest hnd.2 (acc ++ [(k, (JSON.s str))])
      (fun k2 hk2 => lookupL_append_none (hfresh k2 (by simp [hk2]))
        (lookupL_singleton_ne (fun he => hnd.1 (by rw [he]; exact hk2)) _))]
    rw [show nestedFields ((k, JSON.s str) :: rest) = (k, (JSON.s str)) :: nestedFields rest
      from by simp [nestedFields, toNested]]
    simp
  | (k, JSON.b bv) :: rest, hwf, hnd, acc, hfresh => by
    obtain ⟨hk, hv, hrest⟩ := wfFields_cons_iff.mp hwf
    simp only [List.map_cons, List.nodup_cons] at hnd
    rw [show leafFields ((k, JSON.b bv) :: rest) =
        (leaves (JSON.b bv)).map (fun pv => (k :: pv.1, pv.2)) ++ leafFields rest from by
      simp [leafFields]]
    rw [insertSegs_append]
    rw [show insertSegs ((leaves (JSON.b bv)).map fun pv => (k :: pv.1, pv.2)) acc =
        upsert acc k (JSON.b bv) from by simp [leaves, insertSegs, setPath]]
    rw [upsert_fresh (hfresh k (by simp)) (JSON.b bv)]
    rw [insert_leafFields rest hrest hnd.2 (acc ++ [(k, (JSON.b bv))])
      (fun k2 hk2 => lookupL_append_none (hfresh k2 (by simp [hk2]))
        (lookupL_singleton_ne (fun he => hnd.1 (by rw [he]; exact hk2)) _))]
    rw [show nestedFields ((k, JSON.b bv) :: rest) = (k, (JSON.b bv)) :: nestedFields rest
      from by simp [nestedFields, toNested]]
    simp
  | (k, JSON.i n) :: rest, hwf, hnd, acc, hfresh => by
    obtain ⟨hk, hv, hrest⟩ := wfFields_cons_iff.mp hwf
    simp only [List.map_cons, List.nodup_cons] at hnd
    rw [show leafFields ((k, JSON.i n) :: rest) =
        (leaves (JSON.i n)).map (fun pv => (k :: pv.1, pv.2)) ++ leafFields rest from by
      simp [leafFields]]
    rw [insertSegs_append]
    rw [show insertSegs ((leaves (JSON.i n)).map fun pv => (k :: pv.1, pv.2)) acc =
        upsert acc k (JSON.i n) from by simp [leaves, insertSegs, setPath]]
    rw [upsert_fresh (hfresh k (by simp)) (JSON.i n)]
    rw [insert_leafFields rest hrest hnd.2 (acc ++ [(k, (JSON.i n))])
      (fun k2 hk2 => lookupL_append_none (hfresh k2 (by simp [hk2]))
        (lookupL_singleton_ne (fun he => hnd.1 (by rw [he]; exact hk2)) _))]
    rw [show nestedFields ((k, JSON.i n) :: rest) = (k, (JSON.i n)) :: nestedFields rest
      from by simp [nestedFields, toNested]]
    simp
  | (k, JSON.f fv) :: rest, hwf, hnd, acc, hfresh => by
    obtain ⟨hk, hv, hrest⟩ := wfFields_cons_iff.mp hwf
    simp only [List.map_cons, List.nodup_cons] at hnd
    rw [show leafFields ((k, JSON.f fv) :: rest) =
        (leaves (JSON.f fv)).map (fun pv => (k :: pv.1, pv.2)) ++ leafFields rest from by
      simp [leafFields]]
    rw [insertSegs_append]
    rw [show insertSegs ((leaves (JSON.f fv)).map fun pv => (k :: pv.1, pv.2)) acc =
        upsert acc k (JSON.f fv) from by simp [leaves, insertSegs, setPath]]
    rw [upsert_fresh (hfresh k (by simp)) (JSON.f fv)]
    rw [insert_leafFields rest hrest hnd.2 (acc ++ [(k, (JSON.f fv))])
      (fun k2 hk2 => lookupL_append_none (hfresh k2 (by simp [hk2]))
        (lookupL_singleton_ne (fun he => hnd.1 (by rw [he]; exact hk2)) _))]
    rw [show nestedFields ((k, JSON.f fv) :: rest) = (k, (JSON.f fv)) :: nestedFields rest
      from by simp [nestedFields, toNested]]
    simp
  | (k, .null) :: rest, hwf, hnd, acc, hfresh =>
    absurd (wfFields_cons_iff.mp hwf).2.1 wfV_null_false
  | (k, .obj m2) :: rest, hwf, hnd, acc, hfresh => by
    obtain ⟨hk, hv, hrest⟩ := wfFields_cons_iff.mp hwf
    simp only [List.map_cons, List.nodup_cons] at hnd
    obtain ⟨hm2ne, hm2nd, hm2wf⟩ := wfV_obj_iff.mp hv
    rw [show leafFields ((k, .obj m2) :: rest) =
        (leaves (.obj m2)).map (fun pv => (k :: pv.1, pv.2)) ++ leafFields rest
      from by simp [leafFields]]
    rw [insertSegs_append]
    rw [insertSegs_map_cons_fresh k (leaves (.obj m2)) acc
      (leaves_ne_nil _ hv) (leaves_paths_ne_nil hv (by simp [isScalar]))
      (hfresh k (by simp))]
    rw [show leaves (.obj m2) = leafFields m2 from by simp [leaves]]
    rw [insert_leafFields m2 hm2wf hm2nd [] (by simp [lookupL])]
    rw [List.nil_append]
    rw [upsert_fresh (hfresh k (by simp))]
    rw [insert_leafFields rest hrest hnd.2
      (acc ++ [(k, .obj (nestedFields m2))])
      (fun k2 hk2 => lookupL_append_none (hfresh k2 (by simp [hk2]))
        (lookupL_singleton_ne (fun he => hnd.1 (by rw [he]; exact hk2)) _))]
    rw [show nestedFields ((k, .obj m2) :: rest) =
        (k, .obj (nestedFields m2)) :: nestedFields rest from by
      simp [nestedFields, toNested]]
    simp
  | (k, .arr xs) :: rest, hwf, hnd, acc, hfresh => by
    obtain ⟨hk, hv, hrest⟩ := wfFields_cons_iff.mp hwf
    simp only [List.map_cons, List.nodup_cons] at hnd
    obtain ⟨hxne, hxlen, hxwf⟩ := wfV_arr_iff.mp hv
    rw [show leafFields ((k, .arr xs) :: rest) =
        (leaves (.arr xs)).map (fun pv => (k :: pv.1, pv.2)) ++ leafFields rest
      from by simp [leafFields]]
    rw [insertSegs_append]
    rw [insertSegs_map_cons_fresh k (leaves (.arr xs)) acc
      (leaves_ne_nil _ hv) (leaves_paths_ne_nil hv (by simp [isScalar]))
      (hfresh k (by simp))]
    rw [show leaves (.arr xs) = leafItems 0 xs from by simp [leaves]]
    rw [insert_leafItems 0 xs _ hxwf [] (by simp [lookupL])]
    rw [List.nil_append]
    rw [upsert_fresh (hfresh k (by simp))]
    rw [insert_leafFields rest hrest hnd.2
      (acc ++ [(k, .obj (nestedItems 0 xs))])
      (fun k2 hk2 => lookupL_append_none (hfresh k2 (by simp [hk2]))
        (lookupL_singleton_ne (fun he => hnd.1 (by rw [he]; exact hk2)) _))]
    rw [show nestedFields ((k, .arr xs) :: rest) =
        (k, .obj (nestedItems 0 xs)) :: nestedFields rest from by
      simp [nestedFields, toNested]]
    simp
termination_by m hwf hnd acc hfresh => msize m
decreasing_by all_goals simp_arith [jsize, msize, asize]

theorem insert_leafItems : ∀ (i : Nat) (xs : List JSON)
    (sh : List (List String × SKind)), wfElems sh xs = true →
    ∀ (acc : List (String × JSON)),
    (∀ j : Nat, i ≤ j → lookupL acc (natToDec j) = none) →
    insertSegs (leafItems i xs) acc = acc ++ nestedItems i xs
  | _, [], _, _, acc, _ => by simp [leafItems, nestedItems, insertSegs]
  | i, JSON.s str :: rest, sh, hwf, acc, hfresh => by
    obtain ⟨hx, hnarr, hsh, hrest⟩ := wfElems_cons_iff.mp hwf
    rw [show leafItems i (JSON.s str :: rest) =
        (leaves (JSON.s str)).map (fun pv => (natToDec i :: pv.1, pv.2)) ++
          leafItems (i + 1) rest from by simp [leafItems]]
    rw [insertSegs_append]
    rw [show insertSegs ((leaves (JSON.s str)).map fun pv => (natToDec i :: pv.1, pv.2))
        acc = upsert acc (natToDec i) (JSON.s str) from by
      simp [leaves, insertSegs, setPath]]
    rw [upsert_fresh (hfresh i (le_refl i)) (JSON.s str)]
    rw [insert_leafItems (i + 1) rest sh hrest (acc ++ [(natToDec i, (JSON.s str))])
      (fun j hj => lookupL_append_none (hfresh j (by omega))
        (lookupL_singleton_ne
          (fun he => by have := natToDec_injective he; omega) _))]
    rw [show nestedItems i (JSON.s str :: rest) =
        (natToDec i, (JSON.s str)) :: nestedItems (i + 1) rest from by
      simp [nestedItems, toNested]]
    simp
  | i, JSON.b bv :: rest, sh, hwf, acc, hfresh => by
    obtain ⟨hx, hnarr, hsh, hrest⟩ := wfElems_cons_iff.mp hwf
    rw [show leafItems i (JSON.b bv :: rest) =
        (leaves (JSON.b bv)).map (fun pv => (natToDec i :: pv.1, pv.2)) ++
          leafItems (i + 1) rest from by simp [leafItems]]
    rw [insertSegs_append]
    rw [show insertSegs ((leaves (JSON.b bv)).map fun pv => (natToDec i :: pv.1, pv.2))
        acc = upsert acc (natToDec i) (JSON.b bv) from by
      simp [leaves, insertSegs, setPath]]
    rw [upsert_fresh (hfresh i (le_refl i)) (JSON.b bv)]
    rw [insert_leafItems (i + 1) rest sh hrest (acc ++ [(natToDec i, (JSON.b bv))])
      (fun j hj => lookupL_append_none (hfresh j (by omega))
        (lookupL_singleton_ne
          (fun he => by have := natToDec_injective he; omega) _))]
    rw [show nestedItems i (JSON.b bv :: rest) =
        (natToDec i, (JSON.b bv)) :: nestedItems (i + 1) rest from by
      simp [nestedItems, toNested]]
    simp
  | i, JSON.i n :: rest, sh, hwf, acc, hfresh => by
    obtain ⟨hx, hnarr, hsh, hrest⟩ := wfElems_cons_iff.mp hwf
    rw [show leafItems i (JSON.i n :: rest) =
        (leaves (JSON.i n)).map (fun pv => (natToDec i :: pv.1, pv.2)) ++
          leafItems (i + 1) rest from by simp [leafItems]]
    rw [insertSegs_append]
    rw [show insertSegs ((leaves (JSON.i n)).map fun pv => (natToDec i :: pv.1, pv.2))
        acc = upsert acc (natToDec i) (JSON.i n) from by
      simp [leaves, insertSegs, setPath]]
    rw [upsert_fresh (hfresh i (le_refl i)) (JSON.i n)]
    rw [insert_leafItems (i + 1) rest sh hrest (acc ++ [(natToDec i, (JSON.i n))])
      (fun j hj => lookupL_append_none (hfresh j (by omega))
        (lookupL_singleton_ne
          (fun he => by have := natToDec_injective he; omega) _))]
    rw [show nestedItems i (JSON.i n :: rest) =
        (natToDec i, (JSON.i n)) :: nestedItems (i + 1) rest from by
      simp [nestedItems, toNested]]
    simp
  | i, JSON.f fv :: rest, sh, hwf, acc, hfresh => by
    obtain ⟨hx, hnarr, hsh, hrest⟩ := wfElems_cons_iff.mp hwf
    rw [show leafItems i (JSON.f fv :: rest) =
        (leaves (JSON.f fv)).map (fun pv => (natToDec i :: pv.1, pv.2)) ++
          leafItems (i + 1) rest from by simp [leafItems]]
    rw [insertSegs_append]
    rw [show insertSegs ((leaves (JSON.f fv)).map fun pv => (natToDec i :: pv.1, pv.2))
        acc = upsert acc (natToDec i) (JSON.f fv) from by
      simp [leaves, insertSegs, setPath]]
    rw [upsert_fresh (hfresh i (le_refl i)) (JSON.f fv)]
    rw [insert_leafItems (i + 1) rest sh hrest (acc ++ [(natToDec i, (JSON.f fv))])
      (fun j hj => lookupL_append_none (hfresh j (by omega))
        (lookupL_singleton_ne
          (fun he => by have := natToDec_injective he; omega) _))]
    rw [show nestedItems i (JSON.f fv :: rest) =
        (natToDec i, (JSON.f fv)) :: nestedItems (i + 1) rest from by
      simp [nestedItems, toNested]]
    simp
  | i, .null :: rest, sh, hwf, acc, hfresh =>
    absurd (wfElems_cons_iff.mp hwf).1 wfV_null_false
  | i, .arr ys :: rest, sh, hwf, acc, hfresh => by
    have := (wfElems_cons_iff.mp hwf).2.1
    simp [notArr] at this
  | i, .obj m2 :: rest, sh, hwf, acc, hfresh => by
    obtain ⟨hx, hnarr, hsh, hrest⟩ := wfElems_cons_iff.mp hwf
    obtain ⟨hm2ne, hm2nd, hm2wf⟩ := wfV_obj_iff.mp hx
    rw [show leafItems i (JSON.obj m2 :: rest) =
        (leaves (.obj m2)).map (fun pv => (natToDec i :: pv.1, pv.2)) ++
          leafItems (i + 1) rest from by simp [leafItems]]
    rw [insertSegs_append]
    rw [insertSegs_map_cons_fresh (natToDec i) (leaves (.obj m2)) acc
      (leaves_ne_nil _ hx) (leaves_paths_ne_nil hx (by simp [isScalar]))
      (hfresh i (le_refl i))]
    rw [show leaves (.obj m2) = leafFields m2 from by simp [leaves]]
    rw [insert_leafFields m2 hm2wf hm2nd [] (by simp [lookupL])]
    rw [List.nil_append]
    rw [upsert_fresh (hfresh i (le_refl i))]
    rw [insert_leafItems (i + 1) rest sh hrest
      (acc ++ [(natToDec i, .obj (nestedFields m2))])
      (fun j hj => lookupL_append_none (hfresh j (by omega))
        (lookupL_singleton_ne
          (fun he => by have := natToDec_injective he; omega) _))]
    rw [show nestedItems i (JSON.obj m2 :: rest) =
        (natToDec i, .obj (nestedFields m2)) :: nestedItems (i + 1) rest
      from by simp [nestedItems, toNested]]
    simp
termination_by i xs sh hwf acc hfresh => asize xs
decreasing_by all_goals simp_arith [jsize, msize, asize]

end

end GoConfig

namespace GoConfig

/-! ## The conversion phase undoes the index-keyed nesting -/

theorem mem_keys_of_lookupL_some {α : Type} :
    ∀ {L : List (String × α)} {k : String} {v : α},
    lookupL L k = some v → k ∈ L.map Prod.fst
  | [], k, v, h => by simp [lookupL] at h
  | (k0, v0) :: rest, k, v, h => by
    rw [show lookupL ((k0, v0) :: rest) k =
        if k0 = k then some v0 else lookupL rest k from by simp [lookupL]] at h
    by_cases he : k0 = k
    · rw [he]; simp
    · rw [if_neg he] at h
      simp only [List.map_cons, List.mem_cons]
      exact Or.inr (mem_keys_of_lookupL_some h)

theorem wfFields_keys : ∀ {m : List (String × JSON)}, wfFields m = true →
    ∀ k ∈ m.map Prod.fst, wfKey k = true
  | [], _, k, hk => by simp at hk
  | (k0, v0) :: rest, hwf, k, hk => by
    obtain ⟨hk0, hv0, hrest⟩ := wfFields_cons_iff.mp hwf
    simp only [List.map_cons, List.mem_cons] at hk
    cases hk with
    | inl he => rw [he]; exact hk0
    | inr hm => exact wfFields_keys hrest k hm

theorem nestedFields_keys : ∀ (m : List (String × JSON)),
    (nestedFields m).map Prod.fst = m.map Prod.fst
  | [] => by simp [nestedFields]
  | (k, v) :: rest => by
    rw [show nestedFields ((k, v) :: rest) =
        (k, toNested v) :: nestedFields rest from by simp [nestedFields]]
    simp [nestedFields_keys rest]

theorem nestedItems_length : ∀ (xs : List JSON) (i : Nat),
    (nestedItems i xs).length = xs.length
  | [], i => by simp [nestedItems]
  | x :: rest, i => by
    rw [show nestedItems i (x :: rest) =
        (natToDec i, toNested x) :: nestedItems (i + 1) rest from by
      simp [nestedItems]]
    simp [nestedItems_length rest (i + 1)]

theorem lookupL_nestedItems : ∀ (xs : List JSON) (i j : Nat),
    lookupL (nestedItems i xs) (natToDec (i + j)) = xs[j]?.map toNested
  | [], i, j => by simp [nestedItems, lookupL]
  | x :: rest, i, j => by
    rw [show nestedItems i (x :: rest) =
        (natToDec i, toNested x) :: nestedItems (i + 1) rest from by
      simp [nestedItems]]
    rw [show lookupL ((natToDec i, toNested x) :: nestedItems (i + 1) rest)
          (natToDec (i + j)) =
        if natToDec i = natToDec (i + j) then some (toNested x)
        else lookupL (nestedItems (i + 1) rest) (natToDec (i + j)) from by
      simp [lookupL]]
    cases j with
    | zero => simp
    | succ j2 =>
      rw [if_neg (fun he => by have := natToDec_injective he; omega)]
      rw [show i + (j2 + 1) = (i + 1) + j2 from by omega]
      rw [lookupL_nestedItems rest (i + 1) j2]
      simp

theorem lookupL_idxMap : ∀ (xs : List JSON) (i j : Nat),
    lookupL (idxMap i xs) (natToDec (i + j)) = xs[j]?
  | [], i, j => by simp [idxMap, lookupL]
  | x :: rest, i, j => by
    rw [show idxMap i (x :: rest) = (natToDec i, x) :: idxMap (i + 1) rest
      from by simp [idxMap]]
    rw [show lookupL ((natToDec i, x) :: idxMap (i + 1) rest)
          (natToDec (i + j)) =
        if natToDec i = natToDec (i + j) then some x
        else lookupL (idxMap (i + 1) rest) (natToDec (i + j)) from by
      simp [lookupL]]
    cases j with
    | zero => simp
    | succ j2 =>
      rw [if_neg (fun he => by have := natToDec_injective he; omega)]
      rw [show i + (j2 + 1) = (i + 1) + j2 from by omega]
      rw [lookupL_idxMap rest (i + 1) j2]
      simp

theorem idxMap_length : ∀ (xs : List JSON) (i : Nat),
    (idxMap i xs).length = xs.length
  | [], i => by simp [idxMap]
  | x :: rest, i => by simp [idxMap, idxMap_length rest (i + 1)]

theorem convertToArray_idxMap (xs : List JSON) :
    convertToArray (idxMap 0 xs) = xs := by
  apply List.ext_getElem
  · simp [convertToArray, idxMap_length]
  · intro n h1 h2
    simp only [convertToArray, List.getElem_map, List.getElem_range]
    rw [show natToDec n = natToDec (0 + n) from by rw [Nat.zero_add]]
    rw [lookupL_idxMap]
    rw [List.getElem?_eq_getElem h2]
    simp

theorem isNumericArrayMap_nestedItems {xs : List JSON} (hne : xs ≠ []) :
    isNumericArrayMap (nestedItems 0 xs) = true := by
  unfold isNumericArrayMap
  rw [Bool.and_eq_true]
  constructor
  · cases xs with
    | nil => exact absurd rfl hne
    | cons x rest =>
      rw [show nestedItems 0 (x :: rest) =
          (natToDec 0, toNested x) :: nestedItems 1 rest from by
        simp [nestedItems]]
      simp
  · rw [List.all_eq_true]
    intro i hi
    rw [List.mem_range, nestedItems_length] at hi
    rw [show natToDec i = natToDec (0 + i) from by rw [Nat.zero_add]]
    rw [lookupL_nestedItems]
    rw [List.getElem?_eq_getElem hi]
    simp

theorem isNumericArrayMap_false_of_wfKeys {m : List (String × JSON)}
    (h : ∀ k ∈ m.map Prod.fst, wfKey k = true) :
    isNumericArrayMap m = false := by
  by_contra hc
  have htrue : isNumericArrayMap m = true := by
    cases hb : isNumericArrayMap m with
    | false => exact absurd hb hc
    | true => rfl
  unfold isNumericArrayMap at htrue
  rw [Bool.and_eq_true, List.all_eq_true] at htrue
  obtain ⟨hne2, hall⟩ := htrue
  have hlen : 0 < m.length := by
    cases m with
    | nil => simp at hne2
    | cons kv rest => simp
  have h0 := hall 0 (List.mem_range.mpr hlen)
  rw [Option.isSome_iff_exists] at h0
  obtain ⟨v, hv⟩ := h0
  have hkey := h (natToDec 0) (mem_keys_of_lookupL_some hv)
  simp only [wfKey, Bool.and_eq_true, Bool.not_eq_true'] at hkey
  have hiso := hkey.2
  rw [goAtoi_natToDec (by norm_num)] at hiso
  simp at hiso

mutual

theorem conv_toNested : ∀ (v : JSON), wfV v = true →
    convertMapToArrayRecursive (toNested v) = v
  | .s str, _ => by simp [toNested, convertMapToArrayRecursive]
  | .b bv, _ => by simp [toNested, convertMapToArrayRecursive]
  | .i n, _ => by simp [toNested, convertMapToArrayRecursive]
  | .f fv, _ => by simp [toNested, convertMapToArrayRecursive]
  | .null, hwf => absurd hwf wfV_null_false
  | .obj m, hwf => by
    obtain ⟨hmne, hmnd, hmwf⟩ := wfV_obj_iff.mp hwf
    rw [show toNested (.obj m) = .obj (nestedFields m) from by simp [toNested]]
    rw [show convertMapToArrayRecursive (.obj (nestedFields m)) =
        if isNumericArrayMap (nestedFields m) then
          .arr (convertToArray (convFields (nestedFields m)))
        else .obj (convFields (nestedFields m)) from by
      simp [convertMapToArrayRecursive]]
    rw [if_neg (by
      rw [isNumericArrayMap_false_of_wfKeys (fun k hk => wfFields_keys hmwf k
        (by rw [← nestedFields_keys]; exact hk))]
      simp)]
    rw [conv_nestedFields m hmwf]
  | .arr xs, hwf => by
    obtain ⟨hne, hlen, hwfe⟩ := wfV_arr_iff.mp hwf
    rw [show toNested (.arr xs) = .obj (nestedItems 0 xs) from by
      simp [toNested]]
    rw [show convertMapToArrayRecursive (.obj (nestedItems 0 xs)) =
        if isNumericArrayMap (nestedItems 0 xs) then
          .arr (convertToArray (convFields (nestedItems 0 xs)))
        else .obj (convFields (nestedItems 0 xs)) from by
      simp [convertMapToArrayRecursive]]
    rw [if_pos (by rw [isNumericArrayMap_nestedItems hne])]
    rw [conv_nestedItems xs _ hwfe 0]
    rw [convertToArray_idxMap]
termination_by v hwf => jsize v
decreasing_by all_goals simp_arith [jsize, msize, asize]

theorem conv_nestedFields : ∀ (m : List (String × JSON)),
    wfFields m = true → convFields (nestedFields m) = m
  | [], _ => by simp [nestedFields, convFields]
  | (k, v) :: rest, hwf => by
    obtain ⟨hk, hv, hrest⟩ := wfFields_cons_iff.mp hwf
    rw [show nestedFields ((k, v) :: rest) =
        (k, toNested v) :: nestedFields rest from by simp [nestedFields]]
    rw [show convFields ((k, toNested v) :: nestedFields rest) =
        (k, convertMapToArrayRecursive (toNested v)) ::
          convFields (nestedFields rest) from by simp [convFields]]
    rw [conv_toNested v hv, conv_nestedFields rest hrest]
termination_by m hwf => msize m
decreasing_by all_goals simp_arith [jsize, msize, asize]

theorem conv_nestedItems : ∀ (xs : List JSON)
    (sh : List (List String × SKind)), wfElems sh xs = true →
    ∀ (i : Nat), convFields (nestedItems i xs) = idxMap i xs
  | [], _, _, i => by simp [nestedItems, convFields, idxMap]
  | x :: rest, sh, hwf, i => by
    obtain ⟨hx, hnarr, hsh, hrest⟩ := wfElems_cons_iff.mp hwf
    rw [show nestedItems i (x :: rest) =
        (natToDec i, toNested x) :: nestedItems (i + 1) rest from by
      simp [nestedItems]]
    rw [show convFields ((natToDec i, toNested x) ::
          nestedItems (i + 1) rest) =
        (natToDec i, convertMapToArrayRecursive (toNested x)) ::
          convFields (nestedItems (i + 1) rest) from by simp [convFields]]
    rw [conv_toNested x hx, conv_nestedItems rest sh hrest (i + 1)]
    simp [idxMap]
termination_by xs sh hwf i => asize xs
decreasing_by all_goals simp_arith [jsize, msize, asize]

end

end GoConfig

namespace GoConfig

/-! ## Assembling the round trip -/

theorem fold_eq_insertSegs (sh : List (String × GoType)) :
    ∀ (ws : List (List String × JSON)) (acc : List (String × JSON)),
    (∀ pv ∈ ws, splitDot (joinDot pv.1) = pv.1 ∧
      convertValueByTargetType (joinDot pv.1) (goFmt pv.2) sh = pv.2) →
    (ws.map fun pv => (joinDot pv.1, goFmt pv.2)).foldl
      (fun acc2 kv => setPath (splitDot kv.1) acc2
        (convertValueByTargetType kv.1 kv.2 sh)) acc = insertSegs ws acc
  | [], acc, _ => by simp [insertSegs]
  | pv :: rest, acc, h => by
    obtain ⟨hsplit, hconv⟩ := h pv (by simp)
    rw [List.map_cons, List.foldl_cons]
    rw [hsplit, hconv]
    rw [fold_eq_insertSegs sh rest _ (fun q hq => h q (by simp [hq]))]
    simp [insertSegs]

theorem flatToNested_eq_of_fold {storage : List (String × String)}
    {sh : List (String × GoType)} {R : List (String × JSON)}
    (hres : storage.foldl (fun acc kv => setPath (splitDot kv.1) acc
      (convertValueByTargetType kv.1 kv.2 sh)) [] = R) :
    flatToNestedWithTypeAwareness storage sh =
      match convertMapToArrayRecursive (.obj R) with
      | .obj processed => processed
      | _ => R := by
  unfold flatToNestedWithTypeAwareness
  rw [hres]

theorem conv_obj_nestedFields {m : List (String × JSON)}
    (hwf : wfFields m = true) :
    convertMapToArrayRecursive (.obj (nestedFields m)) = .obj m := by
  rw [show convertMapToArrayRecursive (.obj (nestedFields m)) =
      if isNumericArrayMap (nestedFields m) then
        .arr (convertToArray (convFields (nestedFields m)))
      else .obj (convFields (nestedFields m)) from by
    simp [convertMapToArrayRecursive]]
  rw [if_neg (by
    rw [isNumericArrayMap_false_of_wfKeys (fun k hk => wfFields_keys hwf k
      (by rw [← nestedFields_keys]; exact hk))]
    simp)]
  rw [conv_nestedFields m hwf]

end GoConfig

namespace GoConfig

/-- C3: for every well-formed document (scalars limited to strings,
booleans, 64-bit-range integers and floats with parseable renderings; maps
non-empty with distinct, dot-free, non-numeric keys; arrays non-empty,
gap-free and homogeneous with non-array elements), flattening the document
with `flattenJSON` and reconstructing the flat storage with
`flatToNestedWithTypeAwareness` under a shape map matching the document's
own structure yields the document back. -/
theorem flatten_reconstruct_roundtrip (m : List (String × JSON))
    (h : wfDoc m = true) :
    flatToNestedWithTypeAwareness (flattenJSON "" m) (shapeOfDoc m) = m := by
  have hnd : (m.map Prod.fst).Nodup := by
    have := (Bool.and_eq_true _ _ |>.mp h).1
    exact of_decide_eq_true this
  have hwf : wfFields m = true := (Bool.and_eq_true _ _ |>.mp h).2
  have hflat : flattenJSON "" m =
      (leafFields m).map (fun pv => (joinDot pv.1, goFmt pv.2)) := by
    have he := flattenJSON_eq_leafFields [] (by simp) m hwf
    simpa [joinDot] using he
  have hside : ∀ pv ∈ leafFields m, splitDot (joinDot pv.1) = pv.1 ∧
      convertValueByTargetType (joinDot pv.1) (goFmt pv.2) (shapeOfDoc m) =
        pv.2 := by
    intro pv hpv
    obtain ⟨⟨k0, p', hp, hk0⟩, hsegs, hsc, hwfv, hshape⟩ :=
      leafFields_spec m hwf pv hpv
    refine ⟨splitDot_joinDot (by rw [hp]; simp) ?_, ?_⟩
    · intro s hs
      have hws := hsegs s hs
      simp only [wfSeg, Bool.and_eq_true, Bool.not_eq_true'] at hws
      exact hws.2
    · exact resolve_leaf hwf hnd hpv
  have hres : (flattenJSON "" m).foldl (fun acc kv => setPath (splitDot kv.1)
      acc (convertValueByTargetType kv.1 kv.2 (shapeOfDoc m))) [] =
      nestedFields m := by
    rw [hflat]
    rw [fold_eq_insertSegs (shapeOfDoc m) (leafFields m) [] hside]
    rw [insert_leafFields m hwf hnd [] (fun k hk => by simp [lookupL])]
    simp
  rw [flatToNested_eq_of_fold hres]
  rw [conv_obj_nestedFields hwf]

/-- C3 witness: a concrete well-formed document with a string field and a
two-element integer array round-trips exactly. -/
theorem flatten_reconstruct_roundtrip_witness :
    wfDoc [("a", .s "x"), ("b", .arr [.i 1, .i 2])] = true ∧
    flatToNestedWithTypeAwareness
      (flattenJSON "" [("a", .s "x"), ("b", .arr [.i 1, .i 2])])
      (shapeOfDoc [("a", .s "x"), ("b", .arr [.i 1, .i 2])]) =
      [("a", .s "x"), ("b", .arr [.i 1, .i 2])] :=
  ⟨by decide, flatten_reconstruct_roundtrip _ (by decide)⟩

/-- C3 counterexample: the round trip is not the identity on every
document built from the listed types alone — a map whose key is the string
"0" is flattened to the same storage as a one-element array, and the
reconstruction turns it into that array. -/
theorem flatten_reconstruct_numeric_key_cex :
    flatToNestedWithTypeAwareness
      (flattenJSON "" [("a", .obj [("0", .s "x")])])
      (shapeOfDoc [("a", .obj [("0", .s "x")])]) =
      [("a", .arr [.s "x"])] ∧
    [("a", JSON.arr [.s "x"])] ≠ [("a", JSON.obj [("0", .s "x")])] := by
  constructor
  · have hstorage : flattenJSON "" [("a", JSON.obj [("0", JSON.s "x")])] =
        [("a.0", "x")] := by
      simp [flattenJSON, flattenEntry, extKey, goFmt]
    have hsh : shapeOfDoc [("a", JSON.obj [("0", JSON.s "x")])] =
        [("a.0", GoType.tString)] := by
      simp [shapeOfDoc, shapeFields, shapeSegs, kindOf, SKind.toGoType,
        joinDot]
    rw [hstorage, hsh]
    have hres : ([("a.0", "x")] : List (String × String)).foldl
        (fun acc kv => setPath (splitDot kv.1) acc
          (convertValueByTargetType kv.1 kv.2 [("a.0", GoType.tString)]))
        [] = [("a", JSON.obj [("0", JSON.s "x")])] := by rfl
    rw [flatToNested_eq_of_fold hres]
    have hconvm : convertMapToArrayRecursive
        (.obj [("a", JSON.obj [("0", JSON.s "x")])]) =
        .obj [("a", JSON.arr [JSON.s "x"])] := by
      rw [show convertMapToArrayRecursive
            (.obj [("a", JSON.obj [("0", JSON.s "x")])]) =
          if isNumericArrayMap [("a", JSON.obj [("0", JSON.s "x")])] then
            .arr (convertToArray (convFields
              [("a", JSON.obj [("0", JSON.s "x")])]))
          else .obj (convFields [("a", JSON.obj [("0", JSON.s "x")])])
        from by simp [convertMapToArrayRecursive]]
      rw [if_neg (by decide)]
      rw [show convFields [("a", JSON.obj [("0", JSON.s "x")])] =
          [("a", convertMapToArrayRecursive (JSON.obj [("0", JSON.s "x")]))]
        from by simp [convFields]]
      rw [show convertMapToArrayRecursive (JSON.obj [("0", JSON.s "x")]) =
          if isNumericArrayMap [("0", JSON.s "x")] then
            .arr (convertToArray (convFields [("0", JSON.s "x")]))
          else .obj (convFields [("0", JSON.s "x")])
        from by simp [convertMapToArrayRecursive]]
      rw [if_pos (by decide)]
      rw [show convFields [("0", JSON.s "x")] =
          [("0", convertMapToArrayRecursive (JSON.s "x"))] from by
        simp [convFields]]
      rw [show convertMapToArrayRecursive (JSON.s "x") = JSON.s "x" from by
        simp [convertMapToArrayRecursive]]
      rfl
    rw [hconvm]
  · simp

end GoConfig
